import Mathlib

set_option maxHeartbeats 1000000
set_option maxRecDepth 8000

/-!
Verification of the `NYTimesSource` data-loader plugin (`src/loaderPlugin.py`).

The development shallowly embeds the plugin's pure core:
  * `flatten` / `flattenItems` — the nested-dictionary flattener
    (`NYTimesSource.flatten`), with Python `dict(items)` semantics
    modelled by `dictOf`;
  * `getn` — the batch extractor built on `collections.deque.pop()`
    (`NYTimesSource.getn`); note that Python's `deque.pop()` removes
    from the RIGHT (most recently appended) end;
  * `step` / `run` — one iteration, respectively a whole run, of the
    `getDataBatch` generator loop, driven by a list of decoded API
    responses (one response per HTTP GET issued by the loop).

Python strings are modelled as `List Char`, Python dicts as ordered
association lists (insertion order preserved, keys unique); nested
dictionaries are the mutual inductive `NVal`/`NEntries`.  The
`time.sleep` calls are modelled as `SleepEvent` values recorded in the
step output.  Exceptions escaping the generator (`IndexError` from
`docs[-1]` on an empty list, or from popping an empty deque) are
modelled by `crash`.
-/

namespace LoaderPlugin

/-- Python strings, modelled as lists of characters. -/
abbrev Str := List Char

/-- Coerce a Lean string literal to the `Str` model. -/
def strL (s : String) : Str := s.data

mutual
/-- A Python value inside a nested document: either a non-mapping leaf
(modelled opaquely as a string payload, never inspected by the code) or a
nested mapping. -/
inductive NVal : Type where
  | leaf (s : Str) : NVal
  | dict (entries : NEntries) : NVal

/-- An ordered association list of string keys to nested values: the model
of a Python dict (insertion order preserved, keys unique at each level). -/
inductive NEntries : Type where
  | nil : NEntries
  | cons (k : Str) (v : NVal) (rest : NEntries) : NEntries
end

mutual
/-- Boolean equality on nested values. -/
def NVal.beq : NVal → NVal → Bool
  | NVal.leaf a, NVal.leaf b => a = b
  | NVal.dict a, NVal.dict b => NEntries.beq a b
  | _, _ => false

/-- Boolean equality on entry lists. -/
def NEntries.beq : NEntries → NEntries → Bool
  | NEntries.nil, NEntries.nil => true
  | NEntries.cons k v r, NEntries.cons k2 v2 r2 =>
      k = k2 && NVal.beq v v2 && NEntries.beq r r2
  | _, _ => false
end

mutual
theorem nvalBeq_iff : ∀ a b : NVal, NVal.beq a b = true ↔ a = b
  | NVal.leaf a, NVal.leaf b => by
      simp [NVal.beq]
  | NVal.leaf a, NVal.dict b => by
      simp [NVal.beq]
  | NVal.dict a, NVal.leaf b => by
      simp [NVal.beq]
  | NVal.dict a, NVal.dict b => by
      simp [NVal.beq, nentriesBeq_iff a b]

theorem nentriesBeq_iff : ∀ a b : NEntries, NEntries.beq a b = true ↔ a = b
  | NEntries.nil, NEntries.nil => by simp [NEntries.beq]
  | NEntries.nil, NEntries.cons k v r => by simp [NEntries.beq]
  | NEntries.cons k v r, NEntries.nil => by simp [NEntries.beq]
  | NEntries.cons k v r, NEntries.cons k2 v2 r2 => by
      simp [NEntries.beq, nvalBeq_iff v v2, nentriesBeq_iff r r2,
        and_assoc]
end

instance : DecidableEq NVal := fun a b =>
  decidable_of_iff _ (nvalBeq_iff a b)

instance : DecidableEq NEntries := fun a b =>
  decidable_of_iff _ (nentriesBeq_iff a b)

/-- Append two entry lists. -/
def NEntries.append : NEntries → NEntries → NEntries
  | NEntries.nil, e => e
  | NEntries.cons k v r, e => NEntries.cons k v (NEntries.append r e)

/-- The keys of an entry list, in order. -/
def NEntries.keys : NEntries → List Str
  | NEntries.nil => []
  | NEntries.cons k _ r => k :: NEntries.keys r

/-- A flattened record: what `NYTimesSource.flatten` returns for one doc. -/
abbrev FlatRec := List (Str × Str)

/-- Python `dict` update step: `d[k] = v` on an association list keeps the
position of an existing binding of `k` (overwriting its value) and appends
a fresh binding at the end otherwise. -/
def updOrApp (acc : List (Str × α)) (k : Str) (v : α) : List (Str × α) :=
  match acc with
  | [] => [(k, v)]
  | (k1, v1) :: rest => if k1 = k then (k1, v) :: rest else (k1, v1) :: updOrApp rest k v

/-- Python `dict(items)`: fold the pair list into a dict, first occurrence
fixes the position of a key, last occurrence fixes its value. -/
def dictOf (l : List (Str × α)) : List (Str × α) :=
  l.foldl (fun acc kv => updOrApp acc kv.1 kv.2) []

/-- `new_key = parent_key + '.' + k if parent_key else k`
(source line 48; the empty string is falsy in Python). -/
def newKey (parent_key k : Str) : Str :=
  if parent_key = [] then k else parent_key ++ '.' :: k

mutual
/-- The `items` list built by the loop of `NYTimesSource.flatten`
(source lines 46-53). -/
def flattenItems : NEntries → Str → List (Str × Str)
  | NEntries.nil, _ => []
  | NEntries.cons k v rest, p => flattenEntry k v p ++ flattenItems rest p

/-- The items one `k, v` pair contributes: a leaf contributes
`(new_key, v)`; a nested mapping contributes the items of the recursive
call `self.flatten(v, new_key)`, which is itself a `dict(...)`, hence the
inner `dictOf`. -/
def flattenEntry (k : Str) (v : NVal) (p : Str) : List (Str × Str) :=
  match v with
  | NVal.leaf s => [(newKey p k, s)]
  | NVal.dict sub => dictOf (flattenItems sub (newKey p k))
end

/-- `NYTimesSource.flatten(d, parent_key)` (source lines 45-54):
`return dict(items)`. -/
def flatten (d : NEntries) (parent_key : Str) : List (Str × Str) :=
  dictOf (flattenItems d parent_key)

/-- One decoded document from `response['response']['docs']`.  The code
accesses `doc['_id']` (dedup key) and `doc['pub_date']` (watermark), so the
model carries those two string fields explicitly; `fields` holds the rest
of the document's nested mapping. -/
structure Doc : Type where
  _id : Str
  pub_date : Str
  fields : NEntries

/-- The document as the nested mapping the Python code sees. -/
def docToRec (d : Doc) : NEntries :=
  NEntries.cons (strL "_id") (NVal.leaf d._id)
    (NEntries.cons (strL "pub_date") (NVal.leaf d.pub_date) d.fields)

/-- `self.flatten(doc)` (source line 97): flatten with the default
`parent_key = ''`. -/
def flattenDoc (d : Doc) : FlatRec := flatten (docToRec d) []

/-- First-match association-list lookup (`d[k]` read on a dict model). -/
def lookupA (k : Str) : List (Str × α) → Option α
  | [] => none
  | (k1, v) :: rest => if k1 = k then some v else lookupA k rest

/-- The id stored in a flattened record, i.e. its `"_id"` entry. -/
def recId (r : FlatRec) : Option Str := lookupA (strL "_id") r

/-- Well-formedness of a document: its remaining fields do not themselves
flatten to a top-level `"_id"` key, so the flattened record's `"_id"` entry
is the document's id (true of every real NYT document, whose only `_id`
key is the top-level one). -/
def Doc.wf (d : Doc) : Prop :=
  strL "_id" ∉ (flattenItems d.fields []).map Prod.fst

instance (d : Doc) : Decidable d.wf := by
  unfold Doc.wf; infer_instance

/-- `deque.pop()`: remove and return the element at the RIGHT end of the
queue; raises (`none`) on an empty deque. -/
def popRight : List α → Option (α × List α)
  | [] => none
  | [x] => some (x, [])
  | y :: z :: rest =>
    match popRight (z :: rest) with
    | none => none
    | some (x, r1) => some (x, y :: r1)

/-- The `while len(result) < n: result.append(q.pop())` loop of `getn`
(source lines 40-41), which runs exactly `n - 1` more times after the
initial pop seeded `result` with one element. -/
def getnLoop : Nat → List α → List α → Option (List α × List α)
  | 0, q, res => some (res, q)
  | k + 1, q, res =>
    match popRight q with
    | none => none
    | some (x, q1) => getnLoop k q1 (res ++ [x])

/-- `NYTimesSource.getn(q, n)` (source lines 38-42): `result = [q.pop()]`
then pop until `len(result) = n`; returns the batch and the remaining
queue, or `none` when a pop hits an empty deque (IndexError). -/
def getn (q : List α) (n : Nat) : Option (List α × List α) :=
  match popRight q with
  | none => none
  | some (x, q1) => getnLoop (n - 1) q1 [x]

/-- One decoded API response, in the shape the generator inspects:
a `fault` body, a `status == 'ERROR'` body, or a regular body carrying
`response.meta.hits` and `response.docs`. -/
inductive Response : Type where
  | fault : Response
  | errorStatus : Response
  | ok (hits : Nat) (docs : List Doc) : Response

/-- Which `time.sleep` statement ran: the fault-recovery sleep at source
line 85, or the standard end-of-iteration cooldown at source line 107. -/
inductive SleepEvent : Type where
  | faultDelay : SleepEvent
  | standardCooldown : SleepEvent
  deriving DecidableEq

/-- Duration of each sleep: both are `time.sleep(12)` in the source. -/
def sleepDuration : SleepEvent → Nat
  | SleepEvent.faultDelay => 12
  | SleepEvent.standardCooldown => 12

/-- Which unhandled exception killed the generator. -/
inductive CrashKind : Type where
  | lastDocIndex : CrashKind
  | popEmptyDeque : CrashKind
  deriving DecidableEq

/-- The local state of one `getDataBatch` run (source lines 69-72). -/
structure GenState : Type where
  current_date_lower_bound : Str
  page_num : Nat
  article_id_set : List Str
  q : List FlatRec
  deriving DecidableEq

/-- Outcome of one iteration of the `while True` loop: continue with an
optional yielded batch, the sleeps performed, and the new state; or exit
the loop (`break`); or die on an exception. -/
inductive StepRes : Type where
  | next (batch : Option (List FlatRec)) (sleeps : List SleepEvent) (s : GenState) : StepRes
  | halt : StepRes
  | crash (k : CrashKind) : StepRes
  deriving DecidableEq

/-- The dedup loop (source lines 94-97): for each doc whose `_id` is not in
`article_id_set`, add the id to the set and append the flattened doc to the
queue. -/
def ingest : List Str → List FlatRec → List Doc → List Str × List FlatRec
  | seen, q, [] => (seen, q)
  | seen, q, d :: rest =>
    if d._id ∈ seen then ingest seen q rest
    else ingest (d._id :: seen) (q ++ [flattenDoc d]) rest

/-- The tail of a successful iteration (source lines 104-107): if the queue
holds at least `batch_size` records, yield `getn(q, batch_size)`; then the
standard cooldown. -/
def emit (batch_size : Nat) (wm : Str) (pg : Nat) (seen : List Str)
    (q1 : List FlatRec) : StepRes :=
  if batch_size ≤ q1.length then
    match getn q1 batch_size with
    | none => StepRes.crash CrashKind.popEmptyDeque
    | some (b, q2) =>
        StepRes.next (some b) [SleepEvent.standardCooldown] ⟨wm, pg, seen, q2⟩
  else StepRes.next none [SleepEvent.standardCooldown] ⟨wm, pg, seen, q1⟩

/-- One iteration of the `while True` loop of `getDataBatch`
(source lines 73-107), given the decoded response of this iteration's GET:
fault → print, sleep 12, `continue` (lines 83-86);
`status == 'ERROR'` → `break` (lines 87-89);
`hits == 0` → `break` (lines 90-92);
otherwise dedup-ingest the docs (94-97), advance `page_num` and, at the
100-page ceiling, reset it and move the watermark to
`docs[-1]['pub_date'][:10]` (99-102), then possibly yield one batch and
sleep (104-107). -/
def step (batch_size : Nat) (s : GenState) (r : Response) : StepRes :=
  match r with
  | Response.fault => StepRes.next none [SleepEvent.faultDelay] s
  | Response.errorStatus => StepRes.halt
  | Response.ok hits docs =>
    if hits = 0 then StepRes.halt
    else
      let sq := ingest s.article_id_set s.q docs
      let page1 := s.page_num + 1
      if 100 ≤ page1 then
        match docs.getLast? with
        | none => StepRes.crash CrashKind.lastDocIndex
        | some dl => emit batch_size (dl.pub_date.take 10) 0 sq.1 sq.2
      else emit batch_size s.current_date_lower_bound page1 sq.1 sq.2

/-- Result of a run of the generator against a finite list of responses:
the loop either exited via `break` (`ended`), consumed every supplied
response and was still running (`outOfInput`), or died on an exception
(`crashed`); in each case with the batches yielded so far, in order. -/
inductive RunRes : Type where
  | ended (batches : List (List FlatRec)) : RunRes
  | outOfInput (batches : List (List FlatRec)) (s : GenState) : RunRes
  | crashed (batches : List (List FlatRec)) (k : CrashKind) : RunRes
  deriving DecidableEq

/-- Prepend an optionally yielded batch to a run result. -/
def consBatches (ob : Option (List FlatRec)) : RunRes → RunRes
  | RunRes.ended bs => RunRes.ended (ob.toList ++ bs)
  | RunRes.outOfInput bs s => RunRes.outOfInput (ob.toList ++ bs) s
  | RunRes.crashed bs k => RunRes.crashed (ob.toList ++ bs) k

/-- Run the generator loop, consuming one response per iteration. -/
def run (batch_size : Nat) : GenState → List Response → RunRes
  | s, [] => RunRes.outOfInput [] s
  | s, r :: rs =>
    match step batch_size s r with
    | StepRes.halt => RunRes.ended []
    | StepRes.crash k => RunRes.crashed [] k
    | StepRes.next ob _ s1 => consBatches ob (run batch_size s1 rs)

/-- The initial state of `getDataBatch` (source lines 69-72). -/
def initState : GenState := ⟨strL "0000-01-01", 0, [], []⟩

/-- `NYTimesSource.getDataBatch(batch_size)`, as a function of the decoded
responses the upstream source returns to its successive GET requests. -/
def getDataBatch (batch_size : Nat) (rs : List Response) : RunRes :=
  run batch_size initState rs

/-- The batches a run yielded. -/
def batchesOf : RunRes → List (List FlatRec)
  | RunRes.ended bs => bs
  | RunRes.outOfInput bs _ => bs
  | RunRes.crashed bs _ => bs

/-! ### Example documents used by concrete witnesses and counterexamples -/

/-- A concrete document with id `"a"`. -/
def docA : Doc := ⟨strL "a", strL "2024-05-01T00:00", NEntries.nil⟩

/-- A concrete document with id `"b"`. -/
def docB : Doc := ⟨strL "b", strL "2024-05-02T00:00", NEntries.nil⟩

/-! ### C1: FIFO emission order -/

/-- **C1** (claim): records appear within and across emitted batches in the
order they were first appended to the buffer; each batch is removed from
the front of the buffer, oldest first.  The code violates this: `getn`
pops with `deque.pop()`, which removes from the RIGHT (most recently
appended) end, contradicting the source comment "Pop n(batch_size) items
from the front of the queue".  Concretely: with batch size 2 and one fetch
returning docs A then B (buffer `[A, B]` in arrival order), the emitted
batch is `[flatten B, flatten A]` — newest first — and the two records are
distinct, so the reversal is observable. -/
theorem C1_lifo_emission :
    getDataBatch 2 [Response.ok 2 [docA, docB]]
      = RunRes.outOfInput [[flattenDoc docB, flattenDoc docA]]
          ⟨strL "0000-01-01", 1, [strL "b", strL "a"], []⟩
    ∧ flattenDoc docA ≠ flattenDoc docB := by decide

/-! ### C6: fault handling -/

/-- **C6**: on a fault response the generator sleeps the fault-recovery
delay (and only it — the standard end-of-iteration cooldown is skipped),
yields nothing, and continues with a completely unchanged state, so the
next GET uses the same watermark and page cursor and the seen-set and
buffer are unmutated; the fault delay is the fixed 12 time units; and a
fault iteration is invisible in the run's output: running on
`fault :: rs` gives exactly the same result as running on `rs`, so docs
following any faults are yielded with none duplicated or dropped. -/
theorem C6_fault_retry :
    (∀ batch_size s, step batch_size s Response.fault
        = StepRes.next none [SleepEvent.faultDelay] s)
    ∧ sleepDuration SleepEvent.faultDelay = 12
    ∧ (∀ batch_size s rs,
        run batch_size s (Response.fault :: rs) = run batch_size s rs) := by
  refine ⟨fun _ _ => rfl, rfl, fun bs s rs => ?_⟩
  have h : run bs s (Response.fault :: rs) = consBatches none (run bs s rs) := rfl
  rw [h]
  cases run bs s rs <;> simp [consBatches]

/-! ### C7: clean termination on error status or zero hits -/

/-- **C7**: a response with explicit error status, or with a zero hit
count, makes the generator `break` out of its loop: the run ends cleanly
(no crash), emits no further batches, and ignores any responses that would
have followed; in particular a zero-hits (or error) response to the very
first fetch ends `getDataBatch` with zero batches yielded. -/
theorem C7_clean_termination :
    (∀ batch_size s rs,
        run batch_size s (Response.errorStatus :: rs) = RunRes.ended [])
    ∧ (∀ batch_size s docs rs,
        run batch_size s (Response.ok 0 docs :: rs) = RunRes.ended [])
    ∧ (∀ batch_size docs rs,
        getDataBatch batch_size (Response.ok 0 docs :: rs) = RunRes.ended [])
    ∧ (∀ batch_size rs,
        getDataBatch batch_size (Response.errorStatus :: rs) = RunRes.ended []) :=
  ⟨fun _ _ _ => rfl, fun _ _ _ _ => rfl, fun _ _ _ => rfl, fun _ _ => rfl⟩

/-! ### C9: empty-mapping branches are silently dropped -/

/-- **C9**: a key whose value is an empty mapping contributes no entries to
the flattened output — wherever it sits among the entries and whatever the
parent path is, flattening with it equals flattening without it, and all
other branches are flattened normally (both for the raw item list and for
the final `dict(items)`). -/
theorem flattenItems_emptyDict_dropped (post : NEntries) (k p : Str) :
    ∀ pre : NEntries,
      flattenItems (NEntries.append pre (NEntries.cons k (NVal.dict NEntries.nil) post)) p
        = flattenItems (NEntries.append pre post) p
  | NEntries.nil => by
      simp [NEntries.append, flattenItems, flattenEntry, dictOf]
  | NEntries.cons k1 v1 r => by
      simp [NEntries.append, flattenItems,
        flattenItems_emptyDict_dropped post k p r]

theorem C9_empty_dict_dropped :
    ∀ (pre post : NEntries) (k p : Str),
      flattenItems (NEntries.append pre (NEntries.cons k (NVal.dict NEntries.nil) post)) p
          = flattenItems (NEntries.append pre post) p
      ∧ flatten (NEntries.append pre (NEntries.cons k (NVal.dict NEntries.nil) post)) p
          = flatten (NEntries.append pre post) p := by
  intro pre post k p
  exact ⟨flattenItems_emptyDict_dropped post k p pre, by
    unfold flatten; rw [flattenItems_emptyDict_dropped post k p pre]⟩

/-! ### Lemmas about `popRight`, `getnLoop`, `getn` -/

/-- A successful `deque.pop()` splits the queue as `rest ++ [popped]`. -/
theorem popRight_eq : ∀ (l : List α) (x : α) (r : List α),
    popRight l = some (x, r) → l = r ++ [x]
  | [], x, r => by simp [popRight]
  | [a], x, r => by
      intro h
      simp [popRight] at h
      simp [h.1, h.2]
  | y :: z :: rest, x, r => by
      intro h
      simp only [popRight] at h
      cases hp : popRight (z :: rest) with
      | none => rw [hp] at h; exact absurd h (by simp)
      | some xr =>
          rw [hp] at h
          obtain ⟨x1, r1⟩ := xr
          simp at h
          have := popRight_eq (z :: rest) x1 r1 hp
          rw [← h.1, ← h.2, this]
          simp

/-- `deque.pop()` succeeds on every non-empty queue. -/
theorem popRight_isSome : ∀ (l : List α), l ≠ [] →
    ∃ x r, popRight l = some (x, r)
  | [], h => absurd rfl h
  | [a], _ => ⟨a, [], rfl⟩
  | y :: z :: rest, _ => by
      obtain ⟨x, r, hp⟩ := popRight_isSome (z :: rest) (by simp)
      exact ⟨x, y :: r, by simp only [popRight, hp]⟩

/-- What a successful `getnLoop` returns: the batch extends the seed by the
reversed popped suffix of the queue. -/
theorem getnLoop_some : ∀ (k : Nat) (q res b q2 : List α),
    getnLoop k q res = some (b, q2) →
      b.length = res.length + k ∧ ∃ s, q = q2 ++ s ∧ b = res ++ s.reverse := by
  intro k
  induction k with
  | zero =>
      intro q res b q2 h
      simp [getnLoop] at h
      refine ⟨by simp [h.1], [], by simp [h.1, h.2]⟩
  | succ k ih =>
      intro q res b q2 h
      simp only [getnLoop] at h
      cases hp : popRight q with
      | none => rw [hp] at h; exact absurd h (by simp)
      | some xq =>
          rw [hp] at h
          obtain ⟨x, q1⟩ := xq
          obtain ⟨hlen, s1, hq1, hb⟩ := ih q1 (res ++ [x]) b q2 h
          refine ⟨by simp at hlen; omega, s1 ++ [x], ?_, ?_⟩
          · rw [popRight_eq q x q1 hp, hq1]; simp
          · rw [hb]; simp

/-- `getnLoop` succeeds whenever the queue holds enough records. -/
theorem getnLoop_isSome : ∀ (k : Nat) (q res : List α), k ≤ q.length →
    ∃ b q2, getnLoop k q res = some (b, q2) := by
  intro k
  induction k with
  | zero => intro q res _; exact ⟨res, q, rfl⟩
  | succ k ih =>
      intro q res hk
      have hq : q ≠ [] := by
        intro h
        rw [h] at hk
        simp at hk
      obtain ⟨x, q1, hp⟩ := popRight_isSome q hq
      have hlen : q.length = q1.length + 1 := by
        rw [popRight_eq q x q1 hp]; simp
      obtain ⟨b, q2, hl⟩ := ih q1 (res ++ [x]) (by omega)
      exact ⟨b, q2, by simp only [getnLoop, hp, hl]⟩

/-- A successful `getn q n` removes the `max 1 n` newest records from the
right end of the queue and returns them newest-first: the original queue is
the remaining queue followed by the reversed batch. -/
theorem getn_some_facts {q b q2 : List α} {n : Nat}
    (h : getn q n = some (b, q2)) :
    q = q2 ++ b.reverse ∧ b.length = max 1 n := by
  unfold getn at h
  cases hp : popRight q with
  | none => rw [hp] at h; exact absurd h (by simp)
  | some xq =>
      rw [hp] at h
      obtain ⟨x, q1⟩ := xq
      obtain ⟨hlen, s, hq1, hb⟩ := getnLoop_some (n - 1) q1 [x] b q2 h
      constructor
      · rw [popRight_eq q x q1 hp, hq1, hb]
        simp
      · simp at hlen; omega

/-- `getn q n` succeeds whenever `1 ≤ n ≤ q.length`. -/
theorem getn_succeeds {q : List α} {n : Nat} (h1 : 1 ≤ n)
    (h2 : n ≤ q.length) : ∃ b q2, getn q n = some (b, q2) := by
  have hq : q ≠ [] := by
    intro h
    rw [h] at h2
    simp at h2
    omega
  obtain ⟨x, q1, hp⟩ := popRight_isSome q hq
  have hlen : q.length = q1.length + 1 := by
    rw [popRight_eq q x q1 hp]; simp
  obtain ⟨b, q2, hl⟩ := getnLoop_isSome (n - 1) q1 [x] (by omega)
  exact ⟨b, q2, by unfold getn; rw [hp]; exact hl⟩

/-! ### Lemmas about `emit` and `step` -/

/-- When the buffer is short of a batch, `emit` yields nothing and keeps
the buffer. -/
theorem emit_lt {batch_size : Nat} {q1 : List FlatRec} (wm : Str) (pg : Nat)
    (seen : List Str) (h : q1.length < batch_size) :
    emit batch_size wm pg seen q1
      = StepRes.next none [SleepEvent.standardCooldown] ⟨wm, pg, seen, q1⟩ := by
  unfold emit
  rw [if_neg (by omega)]

/-- When the buffer holds at least one positive batch worth, `emit` yields
exactly one batch of exactly `batch_size` records, popped off the right end
of the buffer. -/
theorem emit_ge {batch_size : Nat} {q1 : List FlatRec} (wm : Str) (pg : Nat)
    (seen : List Str) (h1 : 1 ≤ batch_size) (h2 : batch_size ≤ q1.length) :
    ∃ b q2, getn q1 batch_size = some (b, q2)
      ∧ emit batch_size wm pg seen q1
          = StepRes.next (some b) [SleepEvent.standardCooldown] ⟨wm, pg, seen, q2⟩
      ∧ q1 = q2 ++ b.reverse ∧ b.length = batch_size := by
  obtain ⟨b, q2, hg⟩ := getn_succeeds h1 h2
  obtain ⟨hsplit, hlen⟩ := getn_some_facts hg
  refine ⟨b, q2, hg, ?_, hsplit, by rw [hlen]; exact Nat.max_eq_right h1⟩
  unfold emit
  rw [if_pos h2, hg]

/-- Inversion for a continuing `emit`. -/
theorem emit_next_inv {batch_size : Nat} {q1 : List FlatRec} {wm : Str}
    {pg : Nat} {seen : List Str} {ob : Option (List FlatRec)}
    {sl : List SleepEvent} {s2 : GenState}
    (h : emit batch_size wm pg seen q1 = StepRes.next ob sl s2) :
    s2.current_date_lower_bound = wm ∧ s2.page_num = pg
      ∧ s2.article_id_set = seen ∧ sl = [SleepEvent.standardCooldown]
      ∧ ((ob = none ∧ s2.q = q1 ∧ q1.length < batch_size)
          ∨ (∃ b q2, ob = some b ∧ getn q1 batch_size = some (b, q2)
              ∧ s2.q = q2 ∧ batch_size ≤ q1.length)) := by
  unfold emit at h
  by_cases hle : batch_size ≤ q1.length
  · rw [if_pos hle] at h
    cases hg : getn q1 batch_size with
    | none => rw [hg] at h; exact absurd h (by simp)
    | some bq =>
        rw [hg] at h
        obtain ⟨b, q2⟩ := bq
        rw [StepRes.next.injEq] at h
        obtain ⟨hob, hsl, hs2⟩ := h
        subst hs2
        exact ⟨rfl, rfl, rfl, hsl.symm, Or.inr ⟨b, q2, hob.symm, rfl, rfl, hle⟩⟩
  · rw [if_neg hle] at h
    rw [StepRes.next.injEq] at h
    obtain ⟨hob, hsl, hs2⟩ := h
    subst hs2
    exact ⟨rfl, rfl, rfl, hsl.symm, Or.inl ⟨hob.symm, rfl, by omega⟩⟩

/-- Unfolding a document-bearing step (`hits ≠ 0`). -/
theorem step_ok_eq {hits : Nat} (batch_size : Nat) (s : GenState)
    (docs : List Doc) (hh : hits ≠ 0) :
    step batch_size s (Response.ok hits docs)
      = if 100 ≤ s.page_num + 1 then
          match docs.getLast? with
          | none => StepRes.crash CrashKind.lastDocIndex
          | some dl =>
              emit batch_size (dl.pub_date.take 10) 0
                (ingest s.article_id_set s.q docs).1
                (ingest s.article_id_set s.q docs).2
        else
          emit batch_size s.current_date_lower_bound (s.page_num + 1)
            (ingest s.article_id_set s.q docs).1
            (ingest s.article_id_set s.q docs).2 := by
  simp only [step, if_neg hh]

/-- Inversion for a continuing document-bearing step: the new state comes
from `emit` on the post-ingest queue, with the page/watermark update
decided by the 100-page ceiling. -/
theorem step_ok_next_inv {batch_size hits : Nat} {s : GenState}
    {docs : List Doc} {ob : Option (List FlatRec)} {sl : List SleepEvent}
    {s2 : GenState}
    (h : step batch_size s (Response.ok hits docs) = StepRes.next ob sl s2) :
    hits ≠ 0
      ∧ ((s.page_num + 1 < 100
            ∧ emit batch_size s.current_date_lower_bound (s.page_num + 1)
                (ingest s.article_id_set s.q docs).1
                (ingest s.article_id_set s.q docs).2 = StepRes.next ob sl s2)
          ∨ (100 ≤ s.page_num + 1
              ∧ ∃ dl, docs.getLast? = some dl
                  ∧ emit batch_size (dl.pub_date.take 10) 0
                      (ingest s.article_id_set s.q docs).1
                      (ingest s.article_id_set s.q docs).2
                      = StepRes.next ob sl s2)) := by
  by_cases hh : hits = 0
  · rw [hh] at h
    simp [step] at h
  · rw [step_ok_eq batch_size s docs hh] at h
    refine ⟨hh, ?_⟩
    by_cases hc : 100 ≤ s.page_num + 1
    · rw [if_pos hc] at h
      cases hl : docs.getLast? with
      | none => rw [hl] at h; exact absurd h (by simp)
      | some dl =>
          rw [hl] at h
          exact Or.inr ⟨hc, dl, rfl, h⟩
    · rw [if_neg hc] at h
      exact Or.inl ⟨by omega, h⟩

/-- The batches of a run with a batch prepended. -/
theorem batchesOf_consBatches (ob : Option (List FlatRec)) (x : RunRes) :
    batchesOf (consBatches ob x) = ob.toList ++ batchesOf x := by
  cases x <;> rfl

/-- Every batch a continuing step yields comes out of `getn` and has length
exactly `batch_size` (for a positive batch size). -/
theorem step_batch_length {batch_size : Nat} {s : GenState} {r : Response}
    {b : List FlatRec} {sl : List SleepEvent} {s2 : GenState}
    (hbs : 1 ≤ batch_size)
    (h : step batch_size s r = StepRes.next (some b) sl s2) :
    b.length = batch_size := by
  cases r with
  | fault => simp [step] at h
  | errorStatus => simp [step] at h
  | ok hits docs =>
      obtain ⟨-, hcase⟩ := step_ok_next_inv h
      rcases hcase with ⟨-, hemit⟩ | ⟨-, dl, -, hemit⟩ <;>
      · obtain ⟨-, -, -, -, hcases⟩ := emit_next_inv hemit
        rcases hcases with ⟨hob, -, -⟩ | ⟨b2, q2, hob, hg, -, -⟩
        · simp at hob
        · have hb2 : b2 = b := by simpa using hob.symm
          subst hb2
          obtain ⟨-, hlen⟩ := getn_some_facts hg
          omega

/-! ### C4: batch sizing -/

/-- **C4** (counterexample to the claim as stated): with requested batch
size 0, a run can emit two batches of length 1, so a non-final batch has
length different from the requested batch size.  (`len(q) >= 0` always
holds, and `getn` always pops at least one record.) -/
theorem C4_zero_batch_size_counterexample :
    batchesOf (getDataBatch 0 [Response.ok 1 [docA], Response.ok 1 [docB]])
      = [[flattenDoc docA], [flattenDoc docB]]
    ∧ ¬ (∀ b ∈ (batchesOf
          (getDataBatch 0 [Response.ok 1 [docA], Response.ok 1 [docB]])).dropLast,
            b.length = 0) := by decide

/-- **C4** (amended): for every run with a positive requested batch size,
EVERY emitted batch — the last included — has length exactly `batch_size`
(the generator never flushes a partial batch). -/
theorem C4_amended_batch_length :
    ∀ (batch_size : Nat) (rs : List Response), 1 ≤ batch_size →
      ∀ b ∈ batchesOf (getDataBatch batch_size rs), b.length = batch_size := by
  intro batch_size rs hbs
  have main : ∀ (rs2 : List Response) (s : GenState),
      ∀ b ∈ batchesOf (run batch_size s rs2), b.length = batch_size := by
    intro rs2
    induction rs2 with
    | nil => intro s b hb; simp [run, batchesOf] at hb
    | cons r rest ih =>
        intro s b hb
        simp only [run] at hb
        cases hstep : step batch_size s r with
        | halt => rw [hstep] at hb; simp [batchesOf] at hb
        | crash k => rw [hstep] at hb; simp [batchesOf] at hb
        | next ob sl s1 =>
            rw [hstep, batchesOf_consBatches] at hb
            rcases List.mem_append.mp hb with hob | hrec
            · cases ob with
              | none => simp at hob
              | some b1 =>
                  have hb1 : b = b1 := by simpa using hob
                  rw [hb1]
                  exact step_batch_length hbs hstep
            · exact ih s1 b hrec
  exact main rs initState

/-- Witness for C4 (amended): a concrete run with batch size 2 in which the
single emitted batch has length exactly 2. -/
theorem C4_amended_batch_length_witness :
    1 ≤ 2 ∧ ∀ b ∈ batchesOf (getDataBatch 2 [Response.ok 2 [docA, docB]]),
      b.length = 2 :=
  ⟨by decide, C4_amended_batch_length 2 [Response.ok 2 [docA, docB]] (by decide)⟩

/-! ### C3: one batch per fetch cycle -/

/-- The state after the C3 counterexample run: one record still buffered. -/
def stateC3 : GenState :=
  ⟨strL "0000-01-01", 1, [strL "b", strL "a"], [flattenDoc docA]⟩

/-- **C3** (counterexample to the claim as stated): with batch size 1, one
fetch cycle buffers two records (two batches' worth), yet the whole run
yields exactly ONE batch and ends with the buffer still holding
`1 ≥ batch_size` records — emission does not repeat until the buffer is
short, and not more than one batch is yielded in the cycle. -/
theorem C3_single_batch_counterexample :
    getDataBatch 1 [Response.ok 2 [docA, docB]]
      = RunRes.outOfInput [[flattenDoc docB]] stateC3
    ∧ ¬ stateC3.q.length < 1 := by decide

/-- **C3** (amended): in a document-bearing fetch cycle the generator emits
AT MOST ONE batch: none when the post-ingest buffer is short of
`batch_size`, and exactly one batch of exactly `batch_size` records when
the buffer holds at least `batch_size` — any surplus stays buffered for
later cycles (`if`, not `while`, at source line 104). -/
theorem C3_amended_one_batch_per_cycle :
    ∀ (batch_size : Nat) (s : GenState) (hits : Nat) (docs : List Doc)
      (ob : Option (List FlatRec)) (sl : List SleepEvent) (s2 : GenState),
      1 ≤ batch_size →
      step batch_size s (Response.ok hits docs) = StepRes.next ob sl s2 →
      ((ingest s.article_id_set s.q docs).2.length < batch_size →
          ob = none ∧ s2.q = (ingest s.article_id_set s.q docs).2)
      ∧ (batch_size ≤ (ingest s.article_id_set s.q docs).2.length →
          ∃ b, ob = some b ∧ b.length = batch_size
            ∧ (ingest s.article_id_set s.q docs).2 = s2.q ++ b.reverse
            ∧ s2.q.length
                = (ingest s.article_id_set s.q docs).2.length - batch_size) := by
  intro batch_size s hits docs ob sl s2 hbs hstep
  obtain ⟨-, hcase⟩ := step_ok_next_inv hstep
  have hemit : ∃ wm pg, emit batch_size wm pg
      (ingest s.article_id_set s.q docs).1
      (ingest s.article_id_set s.q docs).2 = StepRes.next ob sl s2 := by
    rcases hcase with ⟨-, he⟩ | ⟨-, dl, -, he⟩
    · exact ⟨_, _, he⟩
    · exact ⟨_, _, he⟩
  obtain ⟨wm, pg, he⟩ := hemit
  obtain ⟨-, -, -, -, hcases⟩ := emit_next_inv he
  constructor
  · intro hlt
    rcases hcases with ⟨hob, hq, -⟩ | ⟨b, q2, -, -, -, hge⟩
    · exact ⟨hob, hq⟩
    · omega
  · intro hge
    rcases hcases with ⟨-, -, hlt⟩ | ⟨b, q2, hob, hg, hq, -⟩
    · omega
    · obtain ⟨hsplit, hlen⟩ := getn_some_facts hg
      have hblen : b.length = batch_size := by
        rw [hlen]; exact Nat.max_eq_right hbs
      refine ⟨b, hob, hblen, by rw [← hq] at hsplit; exact hsplit, ?_⟩
      rw [hq, hsplit]
      simp
      omega

/-- Witness for C3 (amended): the amended statement applied to the concrete
cycle of the counterexample — buffer reaches length 2, one batch of length
1 comes out, one record stays buffered. -/
theorem C3_amended_witness :
    1 ≤ (ingest initState.article_id_set initState.q [docA, docB]).2.length
    ∧ ∃ b, (some [flattenDoc docB] : Option (List FlatRec)) = some b
        ∧ b.length = 1
        ∧ (ingest initState.article_id_set initState.q [docA, docB]).2
            = stateC3.q ++ b.reverse
        ∧ stateC3.q.length
            = (ingest initState.article_id_set initState.q [docA, docB]).2.length - 1 :=
  ⟨by decide,
    (C3_amended_one_batch_per_cycle 1 initState 2 [docA, docB]
        (some [flattenDoc docB]) [SleepEvent.standardCooldown] stateC3
        (by decide) (by decide)).2 (by decide)⟩

/-! ### Further step/run lemmas -/

/-- A non-empty list has a last element. -/
theorem getLast_of_ne_nil : ∀ (l : List α), l ≠ [] → ∃ x, l.getLast? = some x
  | [], h => absurd rfl h
  | [a], _ => ⟨a, rfl⟩
  | a :: b :: r, _ => by
      obtain ⟨x, hx⟩ := getLast_of_ne_nil (b :: r) (by simp)
      exact ⟨x, by rw [List.getLast?_cons_cons]; exact hx⟩

/-- Last element of a cons with non-empty tail. -/
theorem getLast_cons_ne_nil {l : List α} (a : α) (h : l ≠ []) :
    (a :: l).getLast? = l.getLast? := by
  cases l with
  | nil => exact absurd rfl h
  | cons b r => exact List.getLast?_cons_cons

/-- Unfolding one iteration of `run`. -/
theorem run_cons (batch_size : Nat) (s : GenState) (r : Response)
    (rs : List Response) :
    run batch_size s (r :: rs)
      = match step batch_size s r with
        | StepRes.halt => RunRes.ended []
        | StepRes.crash k => RunRes.crashed [] k
        | StepRes.next ob _ s1 => consBatches ob (run batch_size s1 rs) := rfl

/-- `emit` always continues with the given watermark, page and seen-set
when the batch size is positive. -/
theorem emit_exists {batch_size : Nat} (wm : Str) (pg : Nat)
    (seen : List Str) (q1 : List FlatRec) (hbs : 1 ≤ batch_size) :
    ∃ ob q2, emit batch_size wm pg seen q1
      = StepRes.next ob [SleepEvent.standardCooldown] ⟨wm, pg, seen, q2⟩ := by
  by_cases hle : batch_size ≤ q1.length
  · obtain ⟨b, q2, -, he, -, -⟩ := emit_ge wm pg seen hbs hle
    exact ⟨some b, q2, he⟩
  · exact ⟨none, q1, emit_lt wm pg seen (by omega)⟩

/-- Structure of a document-bearing step below or at the page ceiling, for
a positive batch size: it continues, runs the standard cooldown, installs
the ingested seen-set, and performs the claimed page/watermark update. -/
theorem step_ok_struct (batch_size hits : Nat) (s : GenState)
    (docs : List Doc) (hbs : 1 ≤ batch_size) (hh : hits ≠ 0)
    (hd : docs ≠ []) (hpage : s.page_num + 1 ≤ 100) :
    ∃ ob s2, step batch_size s (Response.ok hits docs)
        = StepRes.next ob [SleepEvent.standardCooldown] s2
      ∧ s2.article_id_set = (ingest s.article_id_set s.q docs).1
      ∧ (s.page_num + 1 < 100 →
          s2.page_num = s.page_num + 1
          ∧ s2.current_date_lower_bound = s.current_date_lower_bound)
      ∧ (s.page_num + 1 = 100 →
          s2.page_num = 0
          ∧ ∃ dl, docs.getLast? = some dl
              ∧ s2.current_date_lower_bound = dl.pub_date.take 10) := by
  rw [step_ok_eq batch_size s docs hh]
  by_cases hc : 100 ≤ s.page_num + 1
  · rw [if_pos hc]
    obtain ⟨dl, hdl⟩ := getLast_of_ne_nil docs hd
    rw [hdl]
    obtain ⟨ob, q2, he⟩ := emit_exists (dl.pub_date.take 10) 0
      (ingest s.article_id_set s.q docs).1
      (ingest s.article_id_set s.q docs).2 hbs
    refine ⟨ob, _, he, rfl, fun hlt => absurd hlt (by omega),
      fun _ => ⟨rfl, dl, rfl, rfl⟩⟩
  · rw [if_neg hc]
    obtain ⟨ob, q2, he⟩ := emit_exists s.current_date_lower_bound
      (s.page_num + 1) (ingest s.article_id_set s.q docs).1
      (ingest s.article_id_set s.q docs).2 hbs
    refine ⟨ob, _, he, rfl, fun _ => ⟨rfl, rfl⟩,
      fun heq => absurd heq (by omega)⟩

/-! ### C10: safety of the `docs[-1]` access -/

/-- A response is benign for the `docs[-1]` read if it is not a
positive-hits response with an empty docs list. -/
def hasDocsIfHits : Response → Bool
  | Response.ok hits docs => decide (hits = 0) || !docs.isEmpty
  | _ => true

/-- `emit` never raises the last-element IndexError. -/
theorem emit_ne_lastDoc {batch_size : Nat} (wm : Str) (pg : Nat)
    (seen : List Str) (q1 : List FlatRec) :
    emit batch_size wm pg seen q1 ≠ StepRes.crash CrashKind.lastDocIndex := by
  unfold emit
  by_cases hle : batch_size ≤ q1.length
  · rw [if_pos hle]
    cases getn q1 batch_size with
    | none => simp
    | some bq => obtain ⟨b, q2⟩ := bq; simp
  · rw [if_neg hle]; simp

/-- Under the benign-response hypothesis a step never raises the
last-element IndexError. -/
theorem step_ne_lastDoc {batch_size : Nat} {s : GenState} {r : Response}
    (hr : hasDocsIfHits r = true) :
    step batch_size s r ≠ StepRes.crash CrashKind.lastDocIndex := by
  cases r with
  | fault => simp [step]
  | errorStatus => simp [step]
  | ok hits docs =>
      by_cases hh : hits = 0
      · subst hh; simp [step]
      · have hd : docs ≠ [] := by
          intro h0
          subst h0
          simp [hasDocsIfHits, hh] at hr
        rw [step_ok_eq batch_size s docs hh]
        by_cases hc : 100 ≤ s.page_num + 1
        · rw [if_pos hc]
          obtain ⟨dl, hdl⟩ := getLast_of_ne_nil docs hd
          rw [hdl]
          exact emit_ne_lastDoc _ _ _ _
        · rw [if_neg hc]
          exact emit_ne_lastDoc _ _ _ _

/-- Prepending a batch never changes the crash kind of a run result. -/
theorem consBatches_ne_crashed {ob : Option (List FlatRec)} {x : RunRes}
    {k : CrashKind} (h : ∀ B, x ≠ RunRes.crashed B k) :
    ∀ B, consBatches ob x ≠ RunRes.crashed B k := by
  intro B
  cases x with
  | ended bs => simp [consBatches]
  | outOfInput bs s => simp [consBatches]
  | crashed bs k2 =>
      intro hc
      rw [consBatches, RunRes.crashed.injEq] at hc
      exact h bs (by rw [hc.2])

/-- **C10**: (i) whenever every positive-hits response carries at least one
document, no run — from any state, with any batch size — dies on the
embedded `docs[-1]` access: the out-of-bounds branch of the last-element
read at the 100-page ceiling is unreachable; (ii) without that hypothesis
the generator aborts rather than terminating cleanly: feeding 100 responses
with `hits = 1` but empty docs crashes with the last-element IndexError at
the page-100 watermark update, having yielded no batches. -/
theorem C10_last_doc_access :
    (∀ (batch_size : Nat) (s : GenState) (rs : List Response),
        (∀ r ∈ rs, hasDocsIfHits r = true) →
        ∀ B, run batch_size s rs ≠ RunRes.crashed B CrashKind.lastDocIndex)
    ∧ getDataBatch 1 (List.replicate 100 (Response.ok 1 []))
        = RunRes.crashed [] CrashKind.lastDocIndex := by
  constructor
  · intro batch_size s rs
    induction rs generalizing s with
    | nil => intro _ B; simp [run]
    | cons r rest ih =>
        intro hall B
        rw [run_cons]
        cases hstep : step batch_size s r with
        | halt => simp
        | crash k =>
            have hk : k ≠ CrashKind.lastDocIndex := by
              intro hk
              subst hk
              exact step_ne_lastDoc (hall r (by simp)) hstep
            simp [hk]
        | next ob sl s1 =>
            exact consBatches_ne_crashed
              (ih s1 (fun r2 hr2 => hall r2 (by simp [hr2]))) B
  · decide

/-- Witness for C10: the benign-response hypothesis discharged on a
concrete run (one fetch with one document), which indeed does not crash. -/
theorem C10_last_doc_access_witness :
    run 1 initState [Response.ok 1 [docA]]
      ≠ RunRes.crashed [] CrashKind.lastDocIndex :=
  C10_last_doc_access.1 1 initState [Response.ok 1 [docA]] (by decide) []

/-! ### C5: watermark advancement -/

/-- A response that carries exactly one page's worth of documents:
positive hits and a non-empty docs list. -/
def okNonempty : Response → Bool
  | Response.ok hits docs => decide (hits ≠ 0) && !docs.isEmpty
  | _ => false

/-- The 10-character date prefix of the last document of a response. -/
def respLastDate : Response → Option Str
  | Response.ok _ docs => (docs.getLast?).map (fun dl => dl.pub_date.take 10)
  | _ => none

/-- **C5**: (i) step level — on every document-bearing fetch that continues
the loop, the page cursor is incremented, and exactly when it reaches the
100-page ceiling the watermark becomes the 10-character date prefix of the
last fetched document's publication date and the page cursor resets to 0
(below the ceiling the watermark is untouched); (ii) run level — against a
source returning one page's worth of documents per call, a run of `n ≤ 100`
fetches from a page cursor below the ceiling keeps the watermark unchanged
while fewer than 100 pages have accumulated, and advances it to the last
document's date prefix (resetting the cursor to 0) exactly when the 100th
page is reached. -/
theorem C5_watermark_advancement :
    (∀ (batch_size hits : Nat) (s : GenState) (docs : List Doc)
        (ob : Option (List FlatRec)) (sl : List SleepEvent) (s2 : GenState),
        step batch_size s (Response.ok hits docs) = StepRes.next ob sl s2 →
        (s.page_num + 1 < 100 →
            s2.page_num = s.page_num + 1
            ∧ s2.current_date_lower_bound = s.current_date_lower_bound)
        ∧ (100 ≤ s.page_num + 1 →
            s2.page_num = 0
            ∧ ∃ dl, docs.getLast? = some dl
                ∧ s2.current_date_lower_bound = dl.pub_date.take 10))
    ∧ (∀ (batch_size : Nat) (rs : List Response) (s : GenState),
        1 ≤ batch_size →
        (∀ r ∈ rs, okNonempty r = true) →
        s.page_num < 100 → s.page_num + rs.length ≤ 100 →
        ∃ B s2, run batch_size s rs = RunRes.outOfInput B s2
          ∧ (s.page_num + rs.length < 100 →
              s2.page_num = s.page_num + rs.length
              ∧ s2.current_date_lower_bound = s.current_date_lower_bound)
          ∧ (s.page_num + rs.length = 100 →
              s2.page_num = 0
              ∧ ∃ r, rs.getLast? = some r
                  ∧ respLastDate r = some s2.current_date_lower_bound)) := by
  constructor
  · intro batch_size hits s docs ob sl s2 hstep
    obtain ⟨hh, hcase⟩ := step_ok_next_inv hstep
    rcases hcase with ⟨hlt, hemit⟩ | ⟨hge, dl, hdl, hemit⟩
    · obtain ⟨hwm, hpg, -, -, -⟩ := emit_next_inv hemit
      exact ⟨fun _ => ⟨hpg, hwm⟩, fun hc => absurd hc (by omega)⟩
    · obtain ⟨hwm, hpg, -, -, -⟩ := emit_next_inv hemit
      exact ⟨fun hc => absurd hc (by omega), fun _ => ⟨hpg, dl, hdl, hwm⟩⟩
  · intro batch_size rs
    induction rs with
    | nil =>
        intro s hbs hall hlt hle
        refine ⟨[], s, rfl, fun _ => ⟨by simp, rfl⟩, fun hc => ?_⟩
        simp at hc
        omega
    | cons r rest ih =>
        intro s hbs hall hlt hle
        have hr : okNonempty r = true := hall r (by simp)
        cases r with
        | fault => simp [okNonempty] at hr
        | errorStatus => simp [okNonempty] at hr
        | ok hits docs =>
            have hh : hits ≠ 0 := by
              intro h0; subst h0; simp [okNonempty] at hr
            have hd : docs ≠ [] := by
              intro h0; subst h0; simp [okNonempty] at hr
            simp only [List.length_cons] at hle
            obtain ⟨ob, s1, hstep, -, hbelow, hat⟩ :=
              step_ok_struct batch_size hits s docs hbs hh hd (by omega)
            by_cases hreach : s.page_num + 1 = 100
            · have hrest : rest = [] := by
                cases rest with
                | nil => rfl
                | cons r2 rest2 => simp at hle; omega
              subst hrest
              obtain ⟨hpg0, dl, hdl, hwm⟩ := hat hreach
              refine ⟨ob.toList, s1, ?_,
                fun hc => absurd hc (by simp; omega), fun _ => ?_⟩
              · rw [run_cons, hstep]
                simp only [run, consBatches]
                rw [List.append_nil]
              · exact ⟨hpg0, Response.ok hits docs, rfl, by
                  simp [respLastDate, hdl, hwm]⟩
            · obtain ⟨hpg1, hwm1⟩ := hbelow (by omega)
              obtain ⟨B2, s2, hrun, hbelow2, hat2⟩ := ih s1 hbs
                (fun r2 hr2 => hall r2 (by simp [hr2]))
                (by omega) (by omega)
              refine ⟨ob.toList ++ B2, s2, ?_, ?_, ?_⟩
              · rw [run_cons, hstep]
                simp only [hrun, consBatches]
              · intro hc
                simp only [List.length_cons] at hc
                obtain ⟨ha, hb⟩ := hbelow2 (by omega)
                constructor
                · simp only [List.length_cons]
                  omega
                · rw [hb, hwm1]
              · intro hc
                simp only [List.length_cons] at hc
                obtain ⟨ha, r2, hr2last, hr2date⟩ := hat2 (by omega)
                have hrestne : rest ≠ [] := by
                  intro hempty
                  subst hempty
                  simp at hr2last
                exact ⟨ha, r2,
                  by rw [getLast_cons_ne_nil _ hrestne]; exact hr2last,
                  hr2date⟩

/-- Witness for C5: the run-level statement applied to a concrete simulated
source returning exactly one page's worth (one document) per call for 100
calls starting from the initial state. -/
theorem C5_watermark_advancement_witness :
    ∃ B s2, run 1 initState (List.replicate 100 (Response.ok 1 [docA]))
        = RunRes.outOfInput B s2
      ∧ (initState.page_num
            + (List.replicate 100 (Response.ok 1 [docA])).length < 100 →
          s2.page_num = initState.page_num
              + (List.replicate 100 (Response.ok 1 [docA])).length
          ∧ s2.current_date_lower_bound = initState.current_date_lower_bound)
      ∧ (initState.page_num
            + (List.replicate 100 (Response.ok 1 [docA])).length = 100 →
          s2.page_num = 0
          ∧ ∃ r, (List.replicate 100 (Response.ok 1 [docA])).getLast? = some r
              ∧ respLastDate r = some s2.current_date_lower_bound) :=
  C5_watermark_advancement.2 1 (List.replicate 100 (Response.ok 1 [docA]))
    initState (by decide) (by decide) (by decide) (by decide)

/-! ### C2: exactly-once delivery (dedup invariant) -/

/-- The ids of the records in a buffer (or batch), in order. -/
def bufIds (q : List FlatRec) : List Str := q.filterMap recId

/-- All documents of a response are well-formed. -/
def respWF : Response → Bool
  | Response.ok _ docs => docs.all (fun d => decide d.wf)
  | _ => true

/-- Updating a dict under a different key does not change a lookup. -/
theorem lookupA_updOrApp_ne {α : Type} {k k1 : Str} (hne : k1 ≠ k) (v : α) :
    ∀ acc : List (Str × α), lookupA k (updOrApp acc k1 v) = lookupA k acc
  | [] => by simp [updOrApp, lookupA, hne]
  | (k2, v2) :: rest => by
      by_cases h2 : k2 = k1
      · subst h2
        simp [updOrApp, lookupA, hne]
      · simp only [updOrApp, if_neg h2, lookupA]
        by_cases h3 : k2 = k
        · simp [h3]
        · simp [h3, lookupA_updOrApp_ne hne v rest]

/-- Folding bindings whose keys avoid `k` into a dict does not change the
lookup of `k`. -/
theorem lookupA_dictFold_notmem {α : Type} {k : Str} :
    ∀ (l : List (Str × α)) (acc : List (Str × α)),
      k ∉ l.map Prod.fst →
      lookupA k (l.foldl (fun a kv => updOrApp a kv.1 kv.2) acc)
        = lookupA k acc
  | [], _, _ => rfl
  | (k1, v1) :: rest, acc, h => by
      simp only [List.map_cons, List.mem_cons, not_or] at h
      rw [List.foldl_cons]
      rw [lookupA_dictFold_notmem rest _ h.2]
      exact lookupA_updOrApp_ne (fun he => h.1 he.symm) v1 acc

/-- Looking up the head key of a `dict(items)` whose tail avoids that key
returns the head value. -/
theorem lookupA_dictOf_head {α : Type} {k : Str} {v : α} {t : List (Str × α)}
    (h : k ∉ t.map Prod.fst) : lookupA k (dictOf ((k, v) :: t)) = some v := by
  unfold dictOf
  rw [List.foldl_cons]
  rw [lookupA_dictFold_notmem t _ h]
  simp [updOrApp, lookupA]

/-- A well-formed document's flattened record carries the document's id
under the `"_id"` key. -/
theorem recId_flattenDoc {d : Doc} (h : d.wf) :
    recId (flattenDoc d) = some d._id := by
  have hitems : flattenItems (docToRec d) []
      = (strL "_id", d._id) :: (strL "pub_date", d.pub_date)
          :: flattenItems d.fields [] := by
    simp [docToRec, flattenItems, flattenEntry, newKey]
  unfold recId flattenDoc flatten
  rw [hitems]
  apply lookupA_dictOf_head
  simp only [List.map_cons, List.mem_cons, not_or]
  exact ⟨by decide, h⟩

/-- The dedup-ingest loop preserves the dedup invariant: relative to any
list `E` of already-emitted ids, the ids `E` plus the buffered ids stay
pairwise distinct and all remain members of the seen-set. -/
theorem ingest_inv : ∀ (docs : List Doc) (seen : List Str)
    (q : List FlatRec) (E : List Str),
    (∀ d ∈ docs, d.wf) →
    (E ++ bufIds q).Nodup →
    (∀ i ∈ E ++ bufIds q, i ∈ seen) →
    (E ++ bufIds (ingest seen q docs).2).Nodup
    ∧ (∀ i ∈ E ++ bufIds (ingest seen q docs).2, i ∈ (ingest seen q docs).1) := by
  intro docs
  induction docs with
  | nil =>
      intro seen q E _ hnd hmem
      simp only [ingest]
      exact ⟨hnd, hmem⟩
  | cons d rest ih =>
      intro seen q E hwf hnd hmem
      by_cases hmemid : d._id ∈ seen
      · simp only [ingest, if_pos hmemid]
        exact ih seen q E (fun d2 h2 => hwf d2 (by simp [h2])) hnd hmem
      · simp only [ingest, if_neg hmemid]
        have hid : recId (flattenDoc d) = some d._id :=
          recId_flattenDoc (hwf d (by simp))
        have hbuf : bufIds (q ++ [flattenDoc d]) = bufIds q ++ [d._id] := by
          simp [bufIds, List.filterMap_append, hid]
        apply ih (d._id :: seen) (q ++ [flattenDoc d]) E
          (fun d2 h2 => hwf d2 (by simp [h2]))
        · rw [hbuf, ← List.append_assoc]
          refine List.Nodup.append hnd (List.nodup_singleton _) ?_
          intro a ha hb
          simp at hb
          subst hb
          exact hmemid (hmem _ ha)
        · intro i hi
          rw [hbuf, ← List.append_assoc] at hi
          rcases List.mem_append.mp hi with h1 | h2
          · exact List.mem_cons_of_mem _ (hmem _ h1)
          · simp at h2
            subst h2
            exact List.mem_cons_self _ _

/-- One continuing step preserves the dedup invariant, with the ids of the
batch it emits (if any) moving from the buffer to the emitted side. -/
theorem step_inv {batch_size : Nat} {s : GenState} {r : Response}
    {ob : Option (List FlatRec)} {sl : List SleepEvent} {s2 : GenState}
    (E : List Str) (hwf : respWF r = true)
    (hnd : (E ++ bufIds s.q).Nodup)
    (hmem : ∀ i ∈ E ++ bufIds s.q, i ∈ s.article_id_set)
    (hstep : step batch_size s r = StepRes.next ob sl s2) :
    ((E ++ bufIds ob.toList.flatten) ++ bufIds s2.q).Nodup
    ∧ (∀ i ∈ (E ++ bufIds ob.toList.flatten) ++ bufIds s2.q,
        i ∈ s2.article_id_set) := by
  cases r with
  | fault =>
      have h1 : StepRes.next none [SleepEvent.faultDelay] s
          = StepRes.next ob sl s2 := hstep
      rw [StepRes.next.injEq] at h1
      obtain ⟨hob, -, hs2⟩ := h1
      subst hs2
      rw [← hob]
      constructor
      · simpa [bufIds] using hnd
      · intro i hi
        apply hmem
        simpa [bufIds] using hi
  | errorStatus => simp [step] at hstep
  | ok hits docs =>
      obtain ⟨hh, hcase⟩ := step_ok_next_inv hstep
      have hwfd : ∀ d ∈ docs, d.wf := by
        intro d hd
        simp only [respWF, List.all_eq_true, decide_eq_true_eq] at hwf
        exact hwf d hd
      obtain ⟨hnd1, hmem1⟩ :=
        ingest_inv docs s.article_id_set s.q E hwfd hnd hmem
      have hemit : ∃ wm pg, emit batch_size wm pg
          (ingest s.article_id_set s.q docs).1
          (ingest s.article_id_set s.q docs).2 = StepRes.next ob sl s2 := by
        rcases hcase with ⟨-, he⟩ | ⟨-, dl, -, he⟩
        exacts [⟨_, _, he⟩, ⟨_, _, he⟩]
      obtain ⟨wm, pg, he⟩ := hemit
      obtain ⟨-, -, hseen, -, hcases⟩ := emit_next_inv he
      rcases hcases with ⟨hob, hq, -⟩ | ⟨b, q2, hob, hg, hq, -⟩
      · subst hob
        constructor
        · simpa [bufIds, hq] using hnd1
        · intro i hi
          rw [hseen]
          apply hmem1
          simpa [bufIds, hq] using hi
      · subst hob
        obtain ⟨hsplit, -⟩ := getn_some_facts hg
        have hrev : List.Perm (bufIds b.reverse) (bufIds b) :=
          (List.reverse_perm b).filterMap recId
        have hperm : List.Perm ((E ++ bufIds b) ++ bufIds q2)
            (E ++ bufIds (ingest s.article_id_set s.q docs).2) := by
          rw [hsplit]
          have h4 : bufIds (q2 ++ b.reverse) = bufIds q2 ++ bufIds b.reverse := by
            simp [bufIds, List.filterMap_append]
          rw [h4, List.append_assoc]
          apply List.Perm.append_left E
          exact List.perm_append_comm.trans (List.Perm.append_left _ hrev.symm)
        constructor
        · have : (E ++ bufIds (ingest s.article_id_set s.q docs).2).Nodup :=
            hnd1
          have hgoal := (hperm.nodup_iff).mpr this
          simpa [bufIds, hq] using hgoal
        · intro i hi
          rw [hseen]
          apply hmem1
          apply hperm.mem_iff.mp
          simpa [bufIds, hq] using hi

/-- Relative to already-emitted ids `E`, a whole run emits only ids that
never repeat. -/
theorem run_dedup (batch_size : Nat) :
    ∀ (rs : List Response) (s : GenState) (E : List Str),
      (∀ r ∈ rs, respWF r = true) →
      (E ++ bufIds s.q).Nodup →
      (∀ i ∈ E ++ bufIds s.q, i ∈ s.article_id_set) →
      (E ++ (batchesOf (run batch_size s rs)).flatten.filterMap recId).Nodup := by
  intro rs
  induction rs with
  | nil =>
      intro s E hall hnd hmem
      simp only [run, batchesOf, List.flatten_nil, List.filterMap_nil,
        List.append_nil]
      exact hnd.of_append_left
  | cons r rest ih =>
      intro s E hall hnd hmem
      rw [run_cons]
      cases hstep : step batch_size s r with
      | halt =>
          simp only [batchesOf, List.flatten_nil, List.filterMap_nil,
            List.append_nil]
          exact hnd.of_append_left
      | crash k =>
          simp only [batchesOf, List.flatten_nil, List.filterMap_nil,
            List.append_nil]
          exact hnd.of_append_left
      | next ob sl s2 =>
          obtain ⟨hnd2, hmem2⟩ := step_inv E (hall r (by simp)) hnd hmem hstep
          have hrec := ih s2 (E ++ bufIds ob.toList.flatten)
            (fun r2 hr2 => hall r2 (by simp [hr2])) hnd2 hmem2
          simp only [batchesOf_consBatches, List.flatten_append,
            List.filterMap_append, ← List.append_assoc]
          simpa [bufIds, List.append_assoc] using hrec

/-- **C2**: (i) run level — whenever all documents are well-formed (their
only `_id` key is the top-level one), the ids of all records across all
batches emitted by a run of `getDataBatch` are pairwise distinct: no id
appears in two batches, nor twice anywhere (exactly-once delivery within a
run); (ii) invariant level — a continuing step preserves the invariant
that the buffered records' ids are pairwise distinct (a record is buffered
at most once) and every buffered record's id is in the seen-set. -/
theorem C2_exactly_once :
    (∀ (batch_size : Nat) (rs : List Response),
        (∀ r ∈ rs, respWF r = true) →
        ((batchesOf (getDataBatch batch_size rs)).flatten.filterMap recId).Nodup)
    ∧ (∀ (batch_size : Nat) (s : GenState) (r : Response)
        (ob : Option (List FlatRec)) (sl : List SleepEvent) (s2 : GenState),
        respWF r = true →
        (bufIds s.q).Nodup →
        (∀ i ∈ bufIds s.q, i ∈ s.article_id_set) →
        step batch_size s r = StepRes.next ob sl s2 →
        (bufIds s2.q).Nodup
        ∧ (∀ i ∈ bufIds s2.q, i ∈ s2.article_id_set)) := by
  constructor
  · intro batch_size rs hall
    have := run_dedup batch_size rs initState [] hall
      (by simp [initState, bufIds])
      (by intro i hi; simp [initState, bufIds] at hi)
    simpa using this
  · intro batch_size s r ob sl s2 hwf hnd hmem hstep
    obtain ⟨hnd2, hmem2⟩ := step_inv [] hwf (by simpa using hnd)
      (by intro i hi; exact hmem i (by simpa using hi)) hstep
    constructor
    · exact hnd2.of_append_right
    · intro i hi
      exact hmem2 i (by simp [hi])

/-- Witness for C2: a concrete run in which the second fetch re-serves an
already seen document; the emitted ids are nevertheless pairwise
distinct. -/
theorem C2_exactly_once_witness :
    (∀ r ∈ [Response.ok 2 [docA, docB], Response.ok 2 [docA, docB]],
        respWF r = true)
    ∧ ((batchesOf (getDataBatch 2
        [Response.ok 2 [docA, docB], Response.ok 2 [docA, docB]])).flatten.filterMap
          recId).Nodup :=
  ⟨by decide, C2_exactly_once.1 2
    [Response.ok 2 [docA, docB], Response.ok 2 [docA, docB]] (by decide)⟩

/-! ### C8/C9 machinery: well-formedness, leaves, re-nesting -/

mutual
/-- No value anywhere in the entry list is an empty mapping. -/
def noEmptyE : NEntries → Bool
  | NEntries.nil => true
  | NEntries.cons _ v r => noEmptyV v && noEmptyE r

/-- No value inside this value is an empty mapping. -/
def noEmptyV : NVal → Bool
  | NVal.leaf _ => true
  | NVal.dict NEntries.nil => false
  | NVal.dict (NEntries.cons k v r) => noEmptyE (NEntries.cons k v r)
end

mutual
/-- Well-formedness of a nested mapping for the amended round-trip claim:
at every level the keys are non-empty, contain no `'.'` separator, and are
pairwise distinct, and no value is an empty mapping. -/
def wfEntries : NEntries → Bool
  | NEntries.nil => true
  | NEntries.cons k v r =>
      decide (k ≠ []) && decide ('.' ∉ k) && decide (k ∉ NEntries.keys r)
        && wfVal v && wfEntries r

/-- Well-formedness of a nested value. -/
def wfVal : NVal → Bool
  | NVal.leaf _ => true
  | NVal.dict NEntries.nil => false
  | NVal.dict (NEntries.cons k v r) => wfEntries (NEntries.cons k v r)
end

mutual
/-- The leaves of an entry list: for each leaf value, the path of keys from
the root to it, with the leaf payload. -/
def leavesE : NEntries → List (List Str × Str)
  | NEntries.nil => []
  | NEntries.cons k v r => leavesV k v ++ leavesE r

/-- The leaves below one `k, v` pair. -/
def leavesV (k : Str) : NVal → List (List Str × Str)
  | NVal.leaf s => [([k], s)]
  | NVal.dict e => (leavesE e).map (fun pv => (k :: pv.1, pv.2))
end

/-- Dot-join a path of keys. -/
def joinDot : List Str → Str
  | [] => []
  | [p] => p
  | p :: q :: rest => p ++ '.' :: joinDot (q :: rest)

/-- Modelled from the spec: "splitting each flattened key on `.`" — split a
string on the `'.'` separator (the re-nesting procedure is described in the
spec only; the source has no un-flattening code). -/
def splitDot : Str → List Str
  | [] => [[]]
  | c :: rest =>
    if c = '.' then [] :: splitDot rest
    else
      match splitDot rest with
      | [] => [[c]]
      | s :: ss => (c :: s) :: ss

/-- The entries of a value, an empty mapping when the value is a leaf. -/
def subEntries : NVal → NEntries
  | NVal.dict s => s
  | NVal.leaf _ => NEntries.nil

/-- Modelled from the spec: rebuilding step — write a leaf value at key `k`
in one level of the tree, at the key's position if present, appended
otherwise. -/
def insertLeafAt (k : Str) (v : Str) : NEntries → NEntries
  | NEntries.nil => NEntries.cons k (NVal.leaf v) NEntries.nil
  | NEntries.cons k1 w t =>
    if k1 = k then NEntries.cons k1 (NVal.leaf v) t
    else NEntries.cons k1 w (insertLeafAt k v t)

/-- Modelled from the spec: rebuilding step — rewrite the subtree at key
`k` in one level of the tree with `f`, creating the key (from an empty
subtree) if absent. -/
def insertDictAt (k : Str) (f : NEntries → NEntries) : NEntries → NEntries
  | NEntries.nil => NEntries.cons k (NVal.dict (f NEntries.nil)) NEntries.nil
  | NEntries.cons k1 w t =>
    if k1 = k then NEntries.cons k1 (NVal.dict (f (subEntries w))) t
    else NEntries.cons k1 w (insertDictAt k f t)

/-- Modelled from the spec: rebuilding the tree — insert one flattened
value at its split key path. -/
def insertPath : List Str → Str → NEntries → NEntries
  | [], _, t => t
  | [k], v, t => insertLeafAt k v t
  | k :: k2 :: rest, v, t =>
      insertDictAt k (fun sub => insertPath (k2 :: rest) v sub) t

/-- One re-nesting fold step: insert a flattened entry at its split key. -/
def insStep (t : NEntries) (kv : Str × Str) : NEntries :=
  insertPath (splitDot kv.1) kv.2 t

/-- Modelled from the spec: "re-nesting by splitting each flattened key on
`.` and rebuilding the tree" — fold every flattened entry into an initially
empty tree. -/
def renest (flat : List (Str × Str)) : NEntries :=
  flat.foldl insStep NEntries.nil

/-! ### String lemmas for the dot separator -/

/-- Appending to a fixed string on the left is injective. -/
theorem append_cancel_left_str : ∀ (a : Str) {x y : Str},
    a ++ x = a ++ y → x = y
  | [], _, _, h => h
  | c :: as, x, y, h => append_cancel_left_str as (by simpa using h)

/-- Two dot-free prefixes followed by `'.'` decompose uniquely. -/
theorem dotfree_sep : ∀ (a b x y : Str), '.' ∉ a → '.' ∉ b →
    a ++ '.' :: x = b ++ '.' :: y → a = b ∧ x = y := by
  intro a
  induction a with
  | nil =>
      intro b x y _ hb h
      cases b with
      | nil => simp at h; exact ⟨rfl, h⟩
      | cons c bs =>
          simp only [List.nil_append, List.cons_append, List.cons.injEq] at h
          exact absurd (by rw [← h.1]; exact List.mem_cons_self _ _) hb
  | cons c as ih =>
      intro b x y ha hb h
      cases b with
      | nil =>
          simp only [List.cons_append, List.nil_append, List.cons.injEq] at h
          exact absurd (by rw [h.1]; exact List.mem_cons_self _ _) ha
      | cons c2 bs =>
          simp only [List.cons_append, List.cons.injEq] at h
          have ha2 : '.' ∉ as := fun hh => ha (by simp [hh])
          have hb2 : '.' ∉ bs := fun hh => hb (by simp [hh])
          obtain ⟨heq, hxy⟩ := ih bs x y ha2 hb2 h.2
          exact ⟨by rw [h.1, heq], hxy⟩

/-- `splitDot` never returns the empty list of segments. -/
theorem splitDot_ne_nil : ∀ s : Str, splitDot s ≠ []
  | [] => by simp [splitDot]
  | c :: rest => by
      simp only [splitDot]
      by_cases hc : c = '.'
      · simp [hc]
      · rw [if_neg hc]
        cases h : splitDot rest with
        | nil => simp
        | cons s ss => simp

/-- A dot-free string is a single segment. -/
theorem splitDot_no_dot : ∀ s : Str, '.' ∉ s → splitDot s = [s]
  | [] => fun _ => rfl
  | c :: rest => by
      intro h
      simp only [List.mem_cons, not_or] at h
      have hc : ¬ c = '.' := fun hh => h.1 hh.symm
      simp only [splitDot, if_neg hc]
      rw [splitDot_no_dot rest h.2]

/-- Splitting after a dot-free prefix peels off that prefix. -/
theorem splitDot_append : ∀ (a b : Str), '.' ∉ a →
    splitDot (a ++ '.' :: b) = a :: splitDot b
  | [], b, _ => by simp [splitDot]
  | c :: as, b, h => by
      simp only [List.mem_cons, not_or] at h
      have hc : ¬ c = '.' := fun hh => h.1 hh.symm
      simp only [List.cons_append, splitDot, if_neg hc, List.append_eq]
      rw [splitDot_append as b h.2]

/-- Dot-joining a path with a non-empty tail. -/
theorem joinDot_cons (p : Str) (ps : List Str) (h : ps ≠ []) :
    joinDot (p :: ps) = p ++ '.' :: joinDot ps := by
  cases ps with
  | nil => exact absurd rfl h
  | cons q rest => rfl

/-! ### `dict(items)` under distinct keys and key renaming -/

/-- Writing a fresh key appends the binding. -/
theorem updOrApp_notmem {α : Type} {k : Str} (v : α) :
    ∀ acc : List (Str × α), k ∉ acc.map Prod.fst →
      updOrApp acc k v = acc ++ [(k, v)]
  | [], _ => rfl
  | (k1, v1) :: rest, h => by
      simp only [List.map_cons, List.mem_cons, not_or] at h
      have hk1 : ¬ k1 = k := fun hh => h.1 hh.symm
      simp only [updOrApp, if_neg hk1]
      rw [updOrApp_notmem v rest h.2, List.cons_append]

/-- Folding bindings with fresh, pairwise-distinct keys appends them. -/
theorem dictFold_nodup {α : Type} : ∀ (l acc : List (Str × α)),
    (∀ x ∈ l, x.1 ∉ acc.map Prod.fst) → (l.map Prod.fst).Nodup →
    l.foldl (fun a kv => updOrApp a kv.1 kv.2) acc = acc ++ l
  | [], acc, _, _ => by simp
  | (k, v) :: rest, acc, hfresh, hnd => by
      rw [List.foldl_cons]
      have hk : k ∉ acc.map Prod.fst := hfresh (k, v) (by simp)
      have h1 : updOrApp acc k v = acc ++ [(k, v)] := updOrApp_notmem v acc hk
      simp only [h1]
      rw [dictFold_nodup rest (acc ++ [(k, v)]) ?fresh ?nd]
      · simp
      case fresh =>
        intro x hx
        simp only [List.map_append, List.mem_append, List.map_cons,
          List.mem_singleton, not_or]
        refine ⟨fun hh => hfresh x (by simp [hx]) hh, ?_⟩
        simp only [List.map_nil, List.mem_cons, List.not_mem_nil, or_false]
        intro hh
        simp only [List.map_cons, List.nodup_cons] at hnd
        exact hnd.1 (hh ▸ List.mem_map_of_mem Prod.fst hx)
      case nd =>
        simp only [List.map_cons, List.nodup_cons] at hnd
        exact hnd.2

/-- `dict(items)` is the identity on pair lists with pairwise-distinct
keys. -/
theorem dictOf_nodup {α : Type} (l : List (Str × α))
    (h : (l.map Prod.fst).Nodup) : dictOf l = l := by
  unfold dictOf
  rw [dictFold_nodup l [] (by simp) h]
  simp

/-- `updOrApp` commutes with an injective key renaming. -/
theorem updOrApp_map_key {α : Type} (g : Str → Str)
    (hg : ∀ a b, g a = g b → a = b) (k : Str) (v : α) :
    ∀ acc : List (Str × α),
      updOrApp (acc.map (fun kv => (g kv.1, kv.2))) (g k) v
        = (updOrApp acc k v).map (fun kv => (g kv.1, kv.2))
  | [] => rfl
  | (k1, v1) :: rest => by
      by_cases h1 : k1 = k
      · subst h1
        simp [updOrApp]
      · have h2 : g k1 ≠ g k := fun hh => h1 (hg _ _ hh)
        simp only [List.map_cons, updOrApp, if_neg h1, if_neg h2,
          List.map_cons]
        rw [updOrApp_map_key g hg k v rest]

/-- The dict fold commutes with an injective key renaming. -/
theorem dictFold_map_key {α : Type} (g : Str → Str)
    (hg : ∀ a b, g a = g b → a = b) :
    ∀ (l acc : List (Str × α)),
      (l.map (fun kv => (g kv.1, kv.2))).foldl
          (fun a kv => updOrApp a kv.1 kv.2)
          (acc.map (fun kv => (g kv.1, kv.2)))
        = (l.foldl (fun a kv => updOrApp a kv.1 kv.2) acc).map
            (fun kv => (g kv.1, kv.2))
  | [], _ => rfl
  | (k, v) :: rest, acc => by
      simp only [List.map_cons, List.foldl_cons]
      rw [updOrApp_map_key g hg k v acc]
      exact dictFold_map_key g hg rest (updOrApp acc k v)

/-- `dict(items)` commutes with an injective key renaming. -/
theorem dictOf_map_key {α : Type} (g : Str → Str)
    (hg : ∀ a b, g a = g b → a = b) (l : List (Str × α)) :
    dictOf (l.map (fun kv => (g kv.1, kv.2)))
      = (dictOf l).map (fun kv => (g kv.1, kv.2)) := by
  unfold dictOf
  have h := dictFold_map_key g hg l []
  simpa using h

/-! ### Entry-list helpers -/

/-- Keys of an appended entry list. -/
theorem keys_append : ∀ t u : NEntries,
    NEntries.keys (NEntries.append t u)
      = NEntries.keys t ++ NEntries.keys u
  | NEntries.nil, _ => rfl
  | NEntries.cons k v r, u => by
      simp only [NEntries.append, NEntries.keys, List.cons_append,
        keys_append r u]

/-- Reassociating a one-entry append. -/
theorem append_cons_nil : ∀ (t : NEntries) (k : Str) (v : NVal)
    (r : NEntries),
    NEntries.append (NEntries.append t (NEntries.cons k v NEntries.nil)) r
      = NEntries.append t (NEntries.cons k v r)
  | NEntries.nil, _, _, _ => rfl
  | NEntries.cons k1 v1 t1, k, v, r => by
      simp only [NEntries.append, append_cons_nil t1 k v r]

/-! ### Flattening under a parent key -/

/-- Unpacking well-formedness of a cons entry list. -/
theorem wf_cons_elim {k : Str} {v : NVal} {r : NEntries}
    (h : wfEntries (NEntries.cons k v r) = true) :
    k ≠ [] ∧ '.' ∉ k ∧ k ∉ NEntries.keys r
      ∧ wfVal v = true ∧ wfEntries r = true := by
  simp only [wfEntries, Bool.and_eq_true, decide_eq_true_eq] at h
  exact ⟨h.1.1.1.1, h.1.1.1.2, h.1.1.2, h.1.2, h.2⟩

/-- Unpacking well-formedness of a dict value. -/
theorem wfVal_dict_elim {sub : NEntries} (h : wfVal (NVal.dict sub) = true) :
    sub ≠ NEntries.nil ∧ wfEntries sub = true := by
  cases sub with
  | nil => simp [wfVal] at h
  | cons k v r =>
      refine ⟨fun hh => NEntries.noConfusion hh, ?_⟩
      simpa [wfVal] using h

/-- Prefixing with a fixed string and a dot is injective. -/
theorem addDot_inj (pre : Str) : ∀ a b : Str,
    pre ++ '.' :: a = pre ++ '.' :: b → a = b := by
  intro a b h
  have h2 := append_cancel_left_str pre h
  simpa using h2

mutual
/-- Flattening under a non-empty parent key prefixes every flattened key of
the parent-free flattening with `parent ++ "."` (all keys non-empty and
dot-free). -/
theorem flattenItems_withParent : ∀ (e : NEntries) (p : Str),
    wfEntries e = true → p ≠ [] →
    flattenItems e p
      = (flattenItems e []).map (fun kv => (p ++ '.' :: kv.1, kv.2))
  | NEntries.nil, p, _, _ => by simp [flattenItems]
  | NEntries.cons k v r, p, hwf, hp => by
      have hw := wf_cons_elim hwf
      simp only [flattenItems, List.map_append]
      rw [flattenEntry_withParent k v p hw.1 hw.2.2.2.1 hp,
        flattenItems_withParent r p hw.2.2.2.2 hp]

/-- One entry's flattening under a non-empty parent key. -/
theorem flattenEntry_withParent : ∀ (k : Str) (v : NVal) (p : Str),
    k ≠ [] → wfVal v = true → p ≠ [] →
    flattenEntry k v p
      = (flattenEntry k v []).map (fun kv => (p ++ '.' :: kv.1, kv.2))
  | k, NVal.leaf s, p, hk, _, hp => by
      simp [flattenEntry, newKey, hp]
  | k, NVal.dict sub, p, hk, hv, hp => by
      obtain ⟨hsubne, hsubwf⟩ := wfVal_dict_elim hv
      have hnewp : newKey p k = p ++ '.' :: k := by simp [newKey, hp]
      have hnew0 : newKey [] k = k := by simp [newKey]
      simp only [flattenEntry, hnewp, hnew0]
      rw [flattenItems_withParent sub (p ++ '.' :: k) hsubwf (by simp),
        flattenItems_withParent sub k hsubwf hk]
      rw [dictOf_map_key _ (addDot_inj (p ++ '.' :: k)),
        dictOf_map_key _ (addDot_inj k)]
      rw [List.map_map]
      apply List.map_congr_left
      intro kv _
      simp [List.append_assoc]
end

/-! ### Flattened keys are distinct under well-formedness -/

/-- Keys of a well-formed entry list are non-empty and dot-free. -/
theorem wf_keys : ∀ e : NEntries, wfEntries e = true →
    ∀ k2 ∈ NEntries.keys e, k2 ≠ [] ∧ '.' ∉ k2
  | NEntries.nil, _, k2, h => by simp [NEntries.keys] at h
  | NEntries.cons k v r, hwf, k2, h => by
      have hw := wf_cons_elim hwf
      simp only [NEntries.keys, List.mem_cons] at h
      rcases h with rfl | h2
      · exact ⟨hw.1, hw.2.1⟩
      · exact wf_keys r hw.2.2.2.2 k2 h2

/-- A dict entry flattens to the prefixed flattening of its sub-entries,
given that the sub-entries flatten with pairwise-distinct keys. -/
theorem flattenEntry_dict_eq_of_nodup {k : Str} {sub : NEntries}
    (hk : k ≠ []) (hsubwf : wfEntries sub = true)
    (hnd : ((flattenItems sub []).map Prod.fst).Nodup) :
    flattenEntry k (NVal.dict sub) []
      = (flattenItems sub []).map (fun kv => (k ++ '.' :: kv.1, kv.2)) := by
  have hnew0 : newKey [] k = k := by simp [newKey]
  simp only [flattenEntry, hnew0]
  rw [flattenItems_withParent sub k hsubwf hk,
    dictOf_map_key _ (addDot_inj k), dictOf_nodup _ hnd]

/-- The flattened keys of a well-formed entry list are pairwise distinct,
and every flattened key is a top-level key or extends one past a dot. -/
theorem flatten_nodup_all : ∀ e : NEntries, wfEntries e = true →
    ((flattenItems e []).map Prod.fst).Nodup
    ∧ (∀ key ∈ (flattenItems e []).map Prod.fst,
        ∃ k2, k2 ∈ NEntries.keys e
          ∧ (key = k2 ∨ ∃ x, key = k2 ++ '.' :: x))
  | NEntries.nil, _ => ⟨by simp [flattenItems], by simp [flattenItems]⟩
  | NEntries.cons k v r, hwf => by
      obtain ⟨hk0, hkdot, hknotin, hwv, hwr⟩ := wf_cons_elim hwf
      obtain ⟨hndr, hheadr⟩ := flatten_nodup_all r hwr
      cases v with
      | leaf s =>
          have hent : flattenEntry k (NVal.leaf s) [] = [(k, s)] := by
            simp [flattenEntry, newKey]
          simp only [flattenItems, hent, List.singleton_append,
            List.map_cons]
          constructor
          · rw [List.nodup_cons]
            refine ⟨?_, hndr⟩
            intro hmem
            obtain ⟨k2, hk2mem, hk2shape⟩ := hheadr k hmem
            rcases hk2shape with heq | ⟨x, heq⟩
            · exact hknotin (heq ▸ hk2mem)
            · exact hkdot (by rw [heq]; simp)
          · intro key hkey
            rcases List.mem_cons.mp hkey with rfl | hmemr
            · exact ⟨key, by simp [NEntries.keys], Or.inl rfl⟩
            · obtain ⟨k2, hmem2, hsh⟩ := hheadr key hmemr
              exact ⟨k2, by simp [NEntries.keys, hmem2], hsh⟩
      | dict sub =>
          obtain ⟨hsubne, hsubwf⟩ := wfVal_dict_elim hwv
          obtain ⟨hndsub, hheadsub⟩ := flatten_nodup_all sub hsubwf
          have hent := flattenEntry_dict_eq_of_nodup hk0 hsubwf hndsub
          have hkeysE : (flattenEntry k (NVal.dict sub) []).map Prod.fst
              = ((flattenItems sub []).map Prod.fst).map
                  (fun x => k ++ '.' :: x) := by
            rw [hent, List.map_map, List.map_map]
            rfl
          simp only [flattenItems, List.map_append, hkeysE]
          constructor
          · apply List.Nodup.append
            · exact hndsub.map (fun a b hab => addDot_inj k a b hab)
            · exact hndr
            · intro key hkeyE hkeyR
              obtain ⟨x, hxmem, hxeq⟩ := List.mem_map.mp hkeyE
              obtain ⟨k2, hk2mem, hk2shape⟩ := hheadr key hkeyR
              have hk2props := wf_keys r hwr k2 hk2mem
              rcases hk2shape with heq | ⟨y, heq⟩
              · subst heq
                exact hk2props.2 (by rw [← hxeq]; simp)
              · rw [heq] at hxeq
                obtain ⟨hkk2, -⟩ :=
                  dotfree_sep k k2 x y hkdot hk2props.2 hxeq
                exact hknotin (hkk2 ▸ hk2mem)
          · intro key hkey
            rcases List.mem_append.mp hkey with hE | hR
            · obtain ⟨x, -, hxeq⟩ := List.mem_map.mp hE
              exact ⟨k, by simp [NEntries.keys],
                Or.inr ⟨x, hxeq.symm⟩⟩
            · obtain ⟨k2, hmem2, hsh⟩ := hheadr key hR
              exact ⟨k2, by simp [NEntries.keys, hmem2], hsh⟩

/-- A dict entry flattens to the prefixed flattening of its sub-entries. -/
theorem flattenEntry_dict_eq {k : Str} {sub : NEntries} (hk : k ≠ [])
    (hsubwf : wfEntries sub = true) :
    flattenEntry k (NVal.dict sub) []
      = (flattenItems sub []).map (fun kv => (k ++ '.' :: kv.1, kv.2)) :=
  flattenEntry_dict_eq_of_nodup hk hsubwf (flatten_nodup_all sub hsubwf).1

/-- The flattening of a non-empty well-formed entry list is non-empty. -/
theorem flattenItems_ne_nil : ∀ e : NEntries, wfEntries e = true →
    e ≠ NEntries.nil → flattenItems e [] ≠ []
  | NEntries.nil, _, h => absurd rfl h
  | NEntries.cons k v r, hwf, _ => by
      obtain ⟨hk0, -, -, hwv, hwr⟩ := wf_cons_elim hwf
      cases v with
      | leaf s => simp [flattenItems, flattenEntry]
      | dict sub =>
          obtain ⟨hsubne, hsubwf⟩ := wfVal_dict_elim hwv
          have hent := flattenEntry_dict_eq hk0 hsubwf
          simp only [flattenItems, hent]
          intro hcontra
          obtain ⟨h1, -⟩ := List.append_eq_nil.mp hcontra
          exact flattenItems_ne_nil sub hsubwf hsubne
            (List.map_eq_nil_iff.mp h1)

/-! ### Flattening equals the dot-joined leaves -/

/-- Every leaf path is non-empty. -/
theorem leaves_path_ne_nil : ∀ (e : NEntries) (pv : List Str × Str),
    pv ∈ leavesE e → pv.1 ≠ []
  | NEntries.cons k v r, pv, h => by
      simp only [leavesE, List.mem_append] at h
      rcases h with hv | hr
      · cases v with
        | leaf s =>
            simp only [leavesV, List.mem_singleton] at hv
            rw [hv]
            simp
        | dict e2 =>
            simp only [leavesV, List.mem_map] at hv
            obtain ⟨pv2, -, heq⟩ := hv
            rw [← heq]
            simp
      · exact leaves_path_ne_nil r pv hr

/-- The flattening of a well-formed entry list has exactly one entry per
leaf, in leaf order: the key is the dot-joined root-to-leaf path and the
value is the leaf payload unchanged. -/
theorem flattenItems_leaves : ∀ e : NEntries, wfEntries e = true →
    flattenItems e [] = (leavesE e).map (fun pv => (joinDot pv.1, pv.2))
  | NEntries.nil, _ => by simp [flattenItems, leavesE]
  | NEntries.cons k v r, hwf => by
      obtain ⟨hk0, hkdot, -, hwv, hwr⟩ := wf_cons_elim hwf
      simp only [flattenItems, leavesE, List.map_append]
      rw [flattenItems_leaves r hwr]
      congr 1
      cases v with
      | leaf s => simp [flattenEntry, newKey, leavesV, joinDot]
      | dict sub =>
          obtain ⟨hsubne, hsubwf⟩ := wfVal_dict_elim hwv
          rw [flattenEntry_dict_eq hk0 hsubwf, flattenItems_leaves sub hsubwf]
          simp only [leavesV, List.map_map]
          apply List.map_congr_left
          intro pv hpv
          have hne := leaves_path_ne_nil sub pv hpv
          simp [joinDot_cons k pv.1 hne]

/-! ### Re-nesting the flattened entries rebuilds the tree -/

/-- Appending the empty entry list on the right. -/
theorem append_nil_right : ∀ t : NEntries,
    NEntries.append t NEntries.nil = t
  | NEntries.nil => rfl
  | NEntries.cons k v r => by
      simp only [NEntries.append, append_nil_right r]

/-- Inserting a leaf at a fresh key appends it. -/
theorem insertLeafAt_notmem (k : Str) (v : Str) :
    ∀ t : NEntries, k ∉ NEntries.keys t →
      insertLeafAt k v t
        = NEntries.append t (NEntries.cons k (NVal.leaf v) NEntries.nil)
  | NEntries.nil, _ => rfl
  | NEntries.cons k1 v1 r, h => by
      simp only [NEntries.keys, List.mem_cons, not_or] at h
      have h1 : ¬ k1 = k := fun hh => h.1 hh.symm
      simp only [insertLeafAt, if_neg h1, NEntries.append]
      rw [insertLeafAt_notmem k v r h.2]

/-- Inserting a subtree at a fresh key appends it (built from the empty
subtree). -/
theorem insertDictAt_notmem (k : Str) (f : NEntries → NEntries) :
    ∀ t : NEntries, k ∉ NEntries.keys t →
      insertDictAt k f t
        = NEntries.append t
            (NEntries.cons k (NVal.dict (f NEntries.nil)) NEntries.nil)
  | NEntries.nil, _ => rfl
  | NEntries.cons k1 v1 r, h => by
      simp only [NEntries.keys, List.mem_cons, not_or] at h
      have h1 : ¬ k1 = k := fun hh => h.1 hh.symm
      simp only [insertDictAt, if_neg h1, NEntries.append]
      rw [insertDictAt_notmem k f r h.2]

/-- Inserting at the key of the last entry (a dict) rewrites that entry's
subtree in place. -/
theorem insertDictAt_at_last (k : Str) (f : NEntries → NEntries) :
    ∀ (t sub : NEntries), k ∉ NEntries.keys t →
      insertDictAt k f
          (NEntries.append t (NEntries.cons k (NVal.dict sub) NEntries.nil))
        = NEntries.append t
            (NEntries.cons k (NVal.dict (f sub)) NEntries.nil)
  | NEntries.nil, sub, _ => by
      simp [NEntries.append, insertDictAt, subEntries]
  | NEntries.cons k1 v1 r, sub, h => by
      simp only [NEntries.keys, List.mem_cons, not_or] at h
      have h1 : ¬ k1 = k := fun hh => h.1 hh.symm
      simp only [NEntries.append, insertDictAt, if_neg h1]
      rw [insertDictAt_at_last k f r sub h.2]

/-- Folding entries whose keys extend `k` past a dot into a tree ending
with a dict at `k` folds them into that dict. -/
theorem foldl_insStep_under (k : Str) (hk : '.' ∉ k) :
    ∀ (pairs : List (Str × Str)) (t sub : NEntries),
      k ∉ NEntries.keys t →
      List.foldl insStep
          (NEntries.append t (NEntries.cons k (NVal.dict sub) NEntries.nil))
          (pairs.map (fun kv => (k ++ '.' :: kv.1, kv.2)))
        = NEntries.append t (NEntries.cons k
            (NVal.dict (List.foldl insStep sub pairs)) NEntries.nil)
  | [], t, sub, _ => by simp
  | (k1, v1) :: rest, t, sub, ht => by
      simp only [List.map_cons, List.foldl_cons]
      have hstep : insStep
          (NEntries.append t (NEntries.cons k (NVal.dict sub) NEntries.nil))
          (k ++ '.' :: k1, v1)
        = NEntries.append t (NEntries.cons k
            (NVal.dict (insStep sub (k1, v1))) NEntries.nil) := by
        show insertPath (splitDot (k ++ '.' :: k1)) v1
            (NEntries.append t (NEntries.cons k (NVal.dict sub) NEntries.nil))
          = _
        rw [splitDot_append k k1 hk]
        cases hsp : splitDot k1 with
        | nil => exact absurd hsp (splitDot_ne_nil k1)
        | cons s ss =>
            simp only [insertPath]
            rw [insertDictAt_at_last k _ t sub ht]
            show _ = NEntries.append t (NEntries.cons k
              (NVal.dict (insertPath (splitDot k1) v1 sub)) NEntries.nil)
            rw [hsp]
      rw [hstep]
      exact foldl_insStep_under k hk rest t (insStep sub (k1, v1)) ht

/-- Re-nesting the flattening of a well-formed entry list onto any tree
with disjoint top-level keys appends the entry list, entry by entry. -/
theorem renest_flattenItems : ∀ (e t : NEntries),
    wfEntries e = true →
    (∀ k2 ∈ NEntries.keys e, k2 ∉ NEntries.keys t) →
    List.foldl insStep t (flattenItems e []) = NEntries.append t e
  | NEntries.nil, t, _, _ => by
      simp [flattenItems, append_nil_right]
  | NEntries.cons k (NVal.leaf s) r, t, hwf, hdisj => by
      obtain ⟨hk0, hkdot, hknotin, hwv, hwr⟩ := wf_cons_elim hwf
      have hkt : k ∉ NEntries.keys t := hdisj k (by simp [NEntries.keys])
      have hdisj2 : ∀ k2 ∈ NEntries.keys r, k2 ∉ NEntries.keys
          (NEntries.append t (NEntries.cons k (NVal.leaf s) NEntries.nil)) := by
        intro k2 hk2
        rw [keys_append]
        simp only [List.mem_append, not_or]
        refine ⟨hdisj k2 (by simp [NEntries.keys, hk2]), ?_⟩
        intro hin
        simp only [NEntries.keys, List.mem_singleton] at hin
        rw [hin] at hk2
        exact hknotin hk2
      simp only [flattenItems, List.foldl_append]
      have hentry : List.foldl insStep t (flattenEntry k (NVal.leaf s) [])
          = NEntries.append t
              (NEntries.cons k (NVal.leaf s) NEntries.nil) := by
        have hent : flattenEntry k (NVal.leaf s) [] = [(k, s)] := by
          simp [flattenEntry, newKey]
        rw [hent]
        simp only [List.foldl_cons, List.foldl_nil]
        show insertPath (splitDot k) s t = _
        rw [splitDot_no_dot k hkdot]
        simp only [insertPath]
        exact insertLeafAt_notmem k s t hkt
      rw [hentry]
      rw [renest_flattenItems r
        (NEntries.append t (NEntries.cons k (NVal.leaf s) NEntries.nil))
        hwr hdisj2]
      exact append_cons_nil t k (NVal.leaf s) r
  | NEntries.cons k (NVal.dict sub) r, t, hwf, hdisj => by
      obtain ⟨hk0, hkdot, hknotin, hwv, hwr⟩ := wf_cons_elim hwf
      have hkt : k ∉ NEntries.keys t := hdisj k (by simp [NEntries.keys])
      have hdisj2 : ∀ k2 ∈ NEntries.keys r, k2 ∉ NEntries.keys
          (NEntries.append t
            (NEntries.cons k (NVal.dict sub) NEntries.nil)) := by
        intro k2 hk2
        rw [keys_append]
        simp only [List.mem_append, not_or]
        refine ⟨hdisj k2 (by simp [NEntries.keys, hk2]), ?_⟩
        intro hin
        simp only [NEntries.keys, List.mem_singleton] at hin
        rw [hin] at hk2
        exact hknotin hk2
      obtain ⟨hsubne, hsubwf⟩ := wfVal_dict_elim hwv
      simp only [flattenItems, List.foldl_append]
      have hentry : List.foldl insStep t
            (flattenEntry k (NVal.dict sub) [])
          = NEntries.append t
              (NEntries.cons k (NVal.dict sub) NEntries.nil) := by
        rw [flattenEntry_dict_eq hk0 hsubwf]
        cases hbase : flattenItems sub [] with
        | nil => exact absurd hbase (flattenItems_ne_nil sub hsubwf hsubne)
        | cons p0 rest0 =>
            simp only [List.map_cons, List.foldl_cons]
            have hfirst : insStep t (k ++ '.' :: p0.1, p0.2)
                = NEntries.append t (NEntries.cons k
                    (NVal.dict (insStep NEntries.nil p0)) NEntries.nil) := by
              show insertPath (splitDot (k ++ '.' :: p0.1)) p0.2 t = _
              rw [splitDot_append k p0.1 hkdot]
              cases hsp : splitDot p0.1 with
              | nil => exact absurd hsp (splitDot_ne_nil p0.1)
              | cons s ss =>
                  simp only [insertPath]
                  rw [insertDictAt_notmem k _ t hkt]
                  show _ = NEntries.append t (NEntries.cons k
                    (NVal.dict (insertPath (splitDot p0.1) p0.2
                      NEntries.nil)) NEntries.nil)
                  rw [hsp]
            rw [hfirst]
            rw [foldl_insStep_under k hkdot rest0 t
              (insStep NEntries.nil p0) hkt]
            have hsub : List.foldl insStep (insStep NEntries.nil p0) rest0
                = sub := by
              have h2 : List.foldl insStep NEntries.nil (p0 :: rest0)
                  = NEntries.append NEntries.nil sub := by
                rw [← hbase]
                exact renest_flattenItems sub NEntries.nil hsubwf
                  (by simp [NEntries.keys])
              simpa [NEntries.append, List.foldl_cons] using h2
            rw [hsub]
      rw [hentry]
      rw [renest_flattenItems r
        (NEntries.append t (NEntries.cons k (NVal.dict sub) NEntries.nil))
        hwr hdisj2]
      exact append_cons_nil t k (NVal.dict sub) r

/-! ### C8: flatten round trip -/

/-- A mapping with a single key containing the `'.'` separator. -/
def dictDotKey : NEntries :=
  NEntries.cons (strL "a.b") (NVal.leaf (strL "x")) NEntries.nil

/-- A mapping with an empty key whose value is a nested mapping. -/
def dictEmptyKey : NEntries :=
  NEntries.cons (strL "")
    (NVal.dict (NEntries.cons (strL "b") (NVal.leaf (strL "x")) NEntries.nil))
    NEntries.nil

/-- **C8** (counterexamples to the claim as stated): two nested mappings
with no empty-mapping branches and no key collisions after flattening for
which re-nesting the flattened output does not reproduce the original:
a key containing the separator `'.'` (split into two path segments on
re-nesting), and an empty key whose nested value is flattened as if at top
level (Python's empty string is falsy in the `parent_key` test). -/
theorem C8_separator_counterexample :
    (noEmptyE dictDotKey = true
      ∧ ((flatten dictDotKey []).map Prod.fst).Nodup
      ∧ renest (flatten dictDotKey []) ≠ dictDotKey)
    ∧ (noEmptyE dictEmptyKey = true
      ∧ ((flatten dictEmptyKey []).map Prod.fst).Nodup
      ∧ renest (flatten dictEmptyKey []) ≠ dictEmptyKey) := by decide

/-- **C8** (amended): for every nested mapping with no empty-mapping
branches whose keys — at every nesting level — are non-empty, contain no
`'.'` separator, and are pairwise distinct (which makes the flattened keys
collision-free), `flatten` produces exactly one entry per leaf, whose key
is the dot-joined root-to-leaf path and whose value is the leaf unchanged,
and re-nesting by splitting each flattened key on `'.'` and rebuilding the
tree reproduces the original mapping. -/
theorem C8_amended_round_trip :
    ∀ e : NEntries, wfEntries e = true →
      flatten e [] = (leavesE e).map (fun pv => (joinDot pv.1, pv.2))
      ∧ renest (flatten e []) = e := by
  intro e hwf
  have hflat : flatten e [] = flattenItems e [] := by
    unfold flatten
    exact dictOf_nodup _ (flatten_nodup_all e hwf).1
  constructor
  · rw [hflat]
    exact flattenItems_leaves e hwf
  · rw [hflat]
    unfold renest
    rw [renest_flattenItems e NEntries.nil hwf (by simp [NEntries.keys])]
    rfl

/-- A concrete well-formed two-level mapping. -/
def dictEx : NEntries :=
  NEntries.cons (strL "a")
    (NVal.dict (NEntries.cons (strL "b") (NVal.leaf (strL "x")) NEntries.nil))
    (NEntries.cons (strL "c") (NVal.leaf (strL "y")) NEntries.nil)

/-- Witness for C8 (amended): the round trip on a concrete two-level
mapping. -/
theorem C8_amended_round_trip_witness :
    wfEntries dictEx = true
    ∧ flatten dictEx []
        = (leavesE dictEx).map (fun pv => (joinDot pv.1, pv.2))
    ∧ renest (flatten dictEx []) = dictEx :=
  ⟨by decide, (C8_amended_round_trip dictEx (by decide)).1,
    (C8_amended_round_trip dictEx (by decide)).2⟩

end LoaderPlugin
